import Mathlib

/-!
# Verification of the buddy-system frame allocator and linked-list heap

Shallow embedding of `src/allocator/buddy_system/frame.rs` and
`src/allocator/list.rs` from the Kernel_OS repository, together with proofs
about the embedded operations.

Machine integers (`usize`) are modelled as `ℕ`; the only place where
two's-complement wrap-around matters (the `!x + 1` low-bit trick in
`add_frame`) uses an explicit `% 2 ^ 64`.  A `BTreeSet<usize>` is modelled
as its strictly increasing list of elements: `insert`/`remove` are ordered
insertion and removal, `iter().next()` is the head of the list (the least
element), and equality of two sets is equality of the lists.
-/

/-! ## Definitions: machine arithmetic helpers -/

/-- Fuel-driven helper for `trailingZeros` (structural recursion so that the
kernel can evaluate it); the fuel is an upper bound on the number of
halvings, so `tzAux n n` computes `n.trailing_zeros()`. -/
def tzAux : ℕ → ℕ → ℕ
  | 0, _ => 0
  | fuel + 1, n => if n % 2 = 1 ∨ n = 0 then 0 else tzAux fuel (n / 2) + 1

/-- Rust `usize::trailing_zeros` (as a `ℕ`): the number of trailing zero bits.
On `0` the Rust intrinsic returns the bit width 64. -/
def trailingZeros (n : ℕ) : ℕ :=
  if n = 0 then 64 else tzAux n n

/-- Fuel-driven helper for `nextPow2`. -/
def np2Aux : ℕ → ℕ → ℕ
  | 0, _ => 1
  | fuel + 1, n => if n ≤ 1 then 1 else 2 * np2Aux fuel ((n + 1) / 2)

/-- Rust `usize::next_power_of_two`: the least power of two that is `≥ n`
(and `1` for `n = 0`). -/
def nextPow2 (n : ℕ) : ℕ :=
  np2Aux n n

/-- Fuel-driven helper for `floorLog2`. -/
def log2Aux : ℕ → ℕ → ℕ
  | 0, _ => 0
  | fuel + 1, n => if n < 2 then 0 else log2Aux fuel (n / 2) + 1

/-- `floor(log₂ n)` (and `0` for `n ∈ {0, 1}`). -/
def floorLog2 (n : ℕ) : ℕ :=
  log2Aux n n

/-- Modelled from the spec: `prev_power_of_two` lives in
`src/allocator/buddy_system/buddy_manager.rs`, which is not among the provided
sources.  Per §4.2 of the spec the quantity used is `floor_log2(end - start)`,
i.e. the largest power of two that is `≤ n`. -/
def prevPowerOfTwo (n : ℕ) : ℕ :=
  2 ^ floorLog2 n

/-- The Rust expression `current_start & (!current_start + 1)`: `usize`
two's-complement negation and bitwise and, extracting the lowest set bit.
`!p + 1` at 64 bits is `(2 ^ 64 - p) % 2 ^ 64`. -/
def lowBit (p : ℕ) : ℕ :=
  p &&& ((2 ^ 64 - p) % 2 ^ 64)

/-- `BTreeSet::insert`: ordered insertion into the strictly increasing list
of elements (no duplicates). -/
def insertS (x : ℕ) : List ℕ → List ℕ
  | [] => [x]
  | y :: ys => if x < y then x :: y :: ys else if x = y then y :: ys else y :: insertS x ys

/-- `BTreeSet::remove`: removes the element from the strictly increasing
list of elements, if present. -/
def removeS (x : ℕ) : List ℕ → List ℕ
  | [] => []
  | y :: ys => if y = x then ys else y :: removeS x ys

/-- The per-step order that the claim (spec §4.2) asserts for the `add_frame`
decomposition loop at position `p` with range end `e`:
`k = min(trailing_zeros(p) if p > 0 else ORDER-1, floor_log2(e - p))` with
`ORDER = 32`. -/
def claimK (p e : ℕ) : ℕ :=
  min (if 0 < p then trailingZeros p else 31) (floorLog2 (e - p))

/-- The per-step order the source actually uses: identical to `claimK` except
that at `p = 0` the code sets `low_bit` to the *value* `32 = 2^5`, so the
order is capped at `5` rather than `ORDER-1 = 31`. -/
def codeK (p e : ℕ) : ℕ :=
  min (if 0 < p then trailingZeros p else 5) (floorLog2 (e - p))

/-! ## Definitions: the frame allocator (`src/allocator/buddy_system/frame.rs`) -/

namespace FrameAllocator

/-- The array `free_list: [BTreeSet<usize>; 32]` of the frame allocator. -/
abbrev FreeLists := Fin 32 → List ℕ

/-- Read `free_list[k]`; indices out of the array's range (which panic in
Rust and are never reached on the executions we reason about) read back
as the empty set. -/
def getFL (fl : FreeLists) (k : ℕ) : List ℕ :=
  if h : k < 32 then fl ⟨k, h⟩ else []

/-- Write `free_list[k]`; an out-of-range write is a no-op (Rust panics
there; the executions we reason about never reach such a write). -/
def setFL (fl : FreeLists) (k : ℕ) (t : List ℕ) : FreeLists :=
  fun i => if i.val = k then t else fl i

end FrameAllocator

/-- The state of `FrameAllocator` from `src/allocator/buddy_system/frame.rs`:
32 ordered sets of frame indices plus the `allocated` and `total` counters. -/
structure FrameAllocator where
  free_list : FrameAllocator.FreeLists
  allocated : ℕ
  total : ℕ

namespace FrameAllocator

/-- Kernel-friendly equality test for the 32 free lists: compares the lists
at every class below `n`. -/
def flEqB (f g : FreeLists) : ℕ → Bool
  | 0 => true
  | k + 1 => (decide (getFL f k = getFL g k)) && flEqB f g k

/-- Kernel-friendly Boolean equality of allocator states. -/
def beqFA (s t : FrameAllocator) : Bool :=
  flEqB s.free_list t.free_list 32 && (s.allocated == t.allocated) && (s.total == t.total)

/-- Kernel-friendly Boolean equality of optional allocator states. -/
def beqOFA : Option FrameAllocator → Option FrameAllocator → Bool
  | none, none => true
  | some a, some b => beqFA a b
  | _, _ => false

/-- `FrameAllocator::new()`: all free lists empty, counters zero. -/
def new : FrameAllocator :=
  { free_list := fun _ => [], allocated := 0, total := 0 }

/-- The `while current_start < end` loop of `FrameAllocator::add_frame`.
The `fuel` argument makes the recursion structural; since every iteration
advances `current_start` by at least one frame, `e - p` iterations always
suffice (`add_frame` passes exactly that much fuel). -/
def addFrameLoop : ℕ → FreeLists → ℕ → ℕ → ℕ → FreeLists × ℕ
  | 0, fl, _, _, acc => (fl, acc)
  | fuel + 1, fl, p, e, acc =>
    if p < e then
      let low_bit := if 0 < p then lowBit p else 32
      let size := min low_bit (prevPowerOfTwo (e - p))
      addFrameLoop fuel
        (setFL fl (trailingZeros size) (insertS p (getFL fl (trailingZeros size))))
        (p + size) e (acc + size)
    else (fl, acc)

/-- `FrameAllocator::add_frame(start, end)`.  The Rust function asserts
`start <= end`; for `start > end` the loop body never runs, matching the
assertion-free executions we reason about. -/
def add_frame (s : FrameAllocator) (start e : ℕ) : FrameAllocator :=
  let r := addFrameLoop (e - start) s.free_list start e 0
  { free_list := r.1, allocated := s.allocated, total := s.total + r.2 }

/-- `FrameAllocator::insert(range)`, which forwards to `add_frame`. -/
def insertRange (s : FrameAllocator) (start e : ℕ) : FrameAllocator :=
  s.add_frame start e

/-- One iteration of the split loop of `FrameAllocator::alloc` at index `j`
with `block` the least element of `free_list[j]`: push the two halves onto
free-list `j-1` and remove the block from free-list `j`. -/
def splitStep (j block : ℕ) (fl : FreeLists) : FreeLists :=
  let fl1 := setFL fl (j - 1) (insertS (block + 2 ^ (j - 1)) (getFL fl (j - 1)))
  let fl2 := setFL fl1 (j - 1) (insertS block (getFL fl1 (j - 1)))
  setFL fl2 j (removeS block (getFL fl2 j))

/-- The inner split loop `for j in (class + 1..i + 1).rev()` of
`FrameAllocator::alloc`, driven by the (descending) list of values of `j`.
`iter().next()` on a `BTreeSet` is the head of its element list.  The `Bool`
is `false` when the Rust code would `return None` from inside the loop (with
the partially-rewritten free lists). -/
def splitSeq : List ℕ → FreeLists → FreeLists × Bool
  | [], fl => (fl, true)
  | j :: rest, fl =>
    match getFL fl j with
    | [] => (fl, false)
    | block :: _ => splitSeq rest (splitStep j block fl)

/-- The descending list `i, i-1, …, cls+1` of split-loop indices. -/
def splitRange (cls i : ℕ) : List ℕ :=
  (List.range' (cls + 1) (i - cls)).reverse

/-- The scan `for i in class..self.free_list.len()` of `FrameAllocator::alloc`,
driven by the list of values of `i`.  On the first non-empty class it splits
down and pops the least block of class `cls`. -/
def allocScan (cls : ℕ) : List ℕ → FreeLists → Option ℕ × FreeLists
  | [], fl => (none, fl)
  | i :: rest, fl =>
    if getFL fl i = [] then allocScan cls rest fl
    else
      match splitSeq (splitRange cls i) fl with
      | (fl', false) => (none, fl')
      | (fl', true) =>
        match getFL fl' cls with
        | [] => (none, fl')
        | r :: _ => (some r, setFL fl' cls (removeS r (getFL fl' cls)))

/-- `FrameAllocator::alloc(count)`.  Returns the allocated first frame (or
`none`) together with the updated allocator. -/
def alloc (s : FrameAllocator) (count : ℕ) : Option ℕ × FrameAllocator :=
  let size := nextPow2 count
  let cls := trailingZeros size
  match allocScan cls (List.range' cls (32 - cls)) s.free_list with
  | (some r, fl') =>
    (some r, { free_list := fl', allocated := s.allocated + size, total := s.total })
  | (none, fl') =>
    (none, { free_list := fl', allocated := s.allocated, total := s.total })

/-- The coalescing loop `while current_class < self.free_list.len()` of
`FrameAllocator::dealloc`, driven by the list of values of `current_class`;
`p` is `current_ptr`.  When the class list runs out the block is dropped,
exactly as in the Rust code. -/
def deallocSeq : List ℕ → ℕ → FreeLists → FreeLists
  | [], _, fl => fl
  | k :: rest, p, fl =>
    let buddy := p ^^^ 2 ^ k
    if buddy ∈ getFL fl k then
      deallocSeq rest (min p buddy) (setFL fl k (removeS buddy (getFL fl k)))
    else setFL fl k (insertS p (getFL fl k))

/-- `FrameAllocator::dealloc(frame, count)`.  The Rust `allocated -= size` is
a wrapping `usize` subtraction; it is modelled by truncated `ℕ` subtraction,
which agrees with it whenever the dealloc matches a previous alloc. -/
def dealloc (s : FrameAllocator) (frame count : ℕ) : FrameAllocator :=
  let size := nextPow2 count
  let cls := trailingZeros size
  { free_list := deallocSeq (List.range' cls (32 - cls)) frame s.free_list
    allocated := s.allocated - size
    total := s.total }

/-- One `{ a = alloc(count); dealloc(a, count) }` iteration of the
`test_frame_allocator_alloc_and_free` scenario; `none` when the alloc fails. -/
def allocDeallocStep (count : ℕ) (s : FrameAllocator) : Option FrameAllocator :=
  match s.alloc count with
  | (some p, s') => some (s'.dealloc p count)
  | (none, _) => none

/-- `n` successive `{ a = alloc(count); dealloc(a, count) }` iterations;
`none` as soon as one of the allocs fails. -/
def iterAllocDealloc (count : ℕ) : ℕ → FrameAllocator → Option FrameAllocator
  | 0, s => some s
  | n + 1, s => (iterAllocDealloc count n s).bind (allocDeallocStep count)

/-! ### Ghost state for the reachability invariants -/

/-- The multiset of the `n` frame indices `p, p+1, …, p+n-1`. -/
def frames (p n : ℕ) : Multiset ℕ :=
  (List.range' p n : Multiset ℕ)

/-- The multiset of all frames covered by the blocks on the 32 free lists;
a block at index `p` on free-list `k` covers frames `p, …, p + 2^k - 1`. -/
def coveredFL (fl : FreeLists) : Multiset ℕ :=
  ∑ k : Fin 32, ((fl k : Multiset ℕ)).bind fun p => frames p (2 ^ k.val)

/-- The multiset of all frames covered by the live allocations: a live
`(p, count)` covers `count.next_power_of_two()` frames starting at `p`. -/
def liveCov (live : Multiset (ℕ × ℕ)) : Multiset ℕ :=
  live.bind fun pc => frames pc.1 (nextPow2 pc.2)

/-- Every block on free-list `k` is aligned to `2^k`. -/
def AlignedFL (fl : FreeLists) : Prop :=
  ∀ k : Fin 32, ∀ p ∈ fl k, 2 ^ k.val ∣ p

/-- Each free list is a strictly increasing list of frame indices: the
representation invariant of the `BTreeSet` model. -/
def SortedFL (fl : FreeLists) : Prop :=
  ∀ k : Fin 32, List.Sorted (· < ·) (fl k)

/-- No free list holds both a block and its own buddy at the same class
(i.e. the coalescing in `dealloc` has been run to completion). -/
def BuddyFree (fl : FreeLists) : Prop :=
  ∀ k : Fin 32, ∀ p ∈ fl k, p ^^^ 2 ^ k.val ∉ fl k

/-- Bounded reachability: allocator states reachable from
`FrameAllocator::new()` by `add_frame`/`insert` calls on ranges that do not
overlap previously fed frames and end at or below `2^31`, successful
allocs, and deallocs that exactly match a live allocation.  The `b ≤ 2^31`
bound on the feeds is the envelope of the amended conservation statement:
it keeps every block below `2^31`, so no dealloc merge chain can reach
class 32 — where the source's coalescing loop exits and silently drops the
merged block — and every `add_frame` order stays inside the 32-entry array.
`fed` is the ghost set of frames fed so far and `live` the ghost multiset
of live `(frame, count)` allocations. -/
inductive Reach : FrameAllocator → Set ℕ → Multiset (ℕ × ℕ) → Prop
  | new : Reach FrameAllocator.new ∅ 0
  | add {s fed live a b} : Reach s fed live → a ≤ b → b ≤ 2 ^ 31 →
      (∀ i, a ≤ i → i < b → i ∉ fed) →
      Reach (s.add_frame a b) (fed ∪ Set.Ico a b) live
  | insertR {s fed live a b} : Reach s fed live → a ≤ b → b ≤ 2 ^ 31 →
      (∀ i, a ≤ i → i < b → i ∉ fed) →
      Reach (s.insertRange a b) (fed ∪ Set.Ico a b) live
  | allocStep {s fed live c p} : Reach s fed live → (s.alloc c).1 = some p →
      Reach (s.alloc c).2 fed ((p, c) ::ₘ live)
  | deallocStep {s fed live c p} : Reach s fed live → (p, c) ∈ live →
      Reach (s.dealloc p c) fed (live.erase (p, c))

/-- The inductive invariant tied to `Reach`: free and live blocks cover
pairwise disjoint frames, all inside the fed set (which lies below `2^31`);
free blocks are aligned, live blocks are aligned to their rounded size; and
the counters record exactly the covered and live frame counts. -/
structure Inv (s : FrameAllocator) (fed : Set ℕ) (live : Multiset (ℕ × ℕ)) : Prop where
  nodup : (coveredFL s.free_list + liveCov live).Nodup
  inFed : ∀ x ∈ coveredFL s.free_list + liveCov live, x ∈ fed
  fedBound : ∀ x ∈ fed, x < 2 ^ 31
  alignedF : AlignedFL s.free_list
  alignedL : ∀ pc ∈ live, nextPow2 pc.2 ∣ pc.1
  countEq : Multiset.card (coveredFL s.free_list) + s.allocated = s.total
  allocEq : s.allocated = (live.map fun pc => nextPow2 pc.2).sum

/-- Unrestricted reachability, exactly as the alignment claim quantifies:
any `add_frame`/`insert` calls (no bound on the ranges), successful allocs,
and deallocs that exactly match a live allocation; `live` is the ghost
multiset of live `(frame, count)` allocations. -/
inductive ReachAny : FrameAllocator → Multiset (ℕ × ℕ) → Prop
  | new : ReachAny FrameAllocator.new 0
  | add {s live a b} : ReachAny s live → ReachAny (s.add_frame a b) live
  | insertR {s live a b} : ReachAny s live → ReachAny (s.insertRange a b) live
  | allocStep {s live c p} : ReachAny s live → (s.alloc c).1 = some p →
      ReachAny (s.alloc c).2 ((p, c) ::ₘ live)
  | deallocStep {s live c p} : ReachAny s live → (p, c) ∈ live →
      ReachAny (s.dealloc p c) (live.erase (p, c))

/-- The scenario `add_frame(2^32, 2^32 + 2^31); add_frame(2^32 + 2^31,
2^33); alloc(2^31); dealloc(2^32, 2^31)`.  Both feeds are disjoint and
panic-free (each lands one block on class 31); the alloc pops frame `2^32`;
the dealloc finds the buddy `2^32 + 2^31` on class 31, removes it, and the
coalescing loop then exits at `current_class = 32` without reinserting the
merged block, which is silently dropped. -/
def dropScenario : FrameAllocator :=
  ((((FrameAllocator.new.add_frame (2 ^ 32) (2 ^ 32 + 2 ^ 31)).add_frame
    (2 ^ 32 + 2 ^ 31) (2 ^ 33)).alloc (2 ^ 31)).2).dealloc (2 ^ 32) (2 ^ 31)

end FrameAllocator

/-! ## Definitions: the linked-list byte heap (`src/allocator/list.rs`)

The free list of `Allocator` is the chain of `Node` headers hanging off the
sentinel `head`; it is modelled as the list of `(start_address, size)` pairs
of the regions in chain order.  Memory is modelled as a function `ℕ → ℕ`
from byte addresses to byte values. -/

namespace ListHeap

/-- `mem::size_of::<Node>()` on the 64-bit target: an 8-byte `usize` plus
the niche-optimised 8-byte `Option<&'static mut Node>` pointer. -/
def nodeSize : ℕ := 16

/-- `mem::align_of::<Node>()` on the 64-bit target. -/
def nodeAlign : ℕ := 8

/-- Modelled from the spec: `align_up` lives in `src/allocator/alloc.rs`,
which is not among the provided sources.  Per §4.4 of the spec it rounds an
address up to the next multiple of `align` (alignments are powers of two in
every call). -/
def alignUp (addr align : ℕ) : ℕ :=
  if align = 0 then addr else (addr + align - 1) / align * align

/-- `Allocator::add_free_region(addr, size)`: push a fresh node at `addr`
covering `size` bytes onto the head of the chain.  The Rust function asserts
that `addr` is node-aligned and `size ≥ size_of::<Node>()`; the executions
we reason about satisfy both, and panics are not modelled. -/
def add_free_region (addr size : ℕ) (rs : List (ℕ × ℕ)) : List (ℕ × ℕ) :=
  (addr, size) :: rs

/-- `Allocator::alloc_from_region(region, size, align)`: the candidate
allocation start, or `none` for the three `Err` paths (`checked_add`
overflow at 64 bits, region too small, trailing excess positive but too
small to hold a node header). -/
def allocFromRegion (rg : ℕ × ℕ) (size align : ℕ) : Option ℕ :=
  let alloc_start := alignUp rg.1 align
  if 2 ^ 64 ≤ alloc_start + size then none
  else if rg.1 + rg.2 < alloc_start + size then none
  else if 0 < rg.1 + rg.2 - (alloc_start + size) ∧
      rg.1 + rg.2 - (alloc_start + size) < nodeSize then none
  else some alloc_start

/-- `Allocator::find_region(size, align)`: walk the chain from the head;
on the first region that `alloc_from_region` accepts, unlink it and return
it together with the allocation start and the remaining chain. -/
def find_region (size align : ℕ) : List (ℕ × ℕ) → Option ((ℕ × ℕ) × ℕ × List (ℕ × ℕ))
  | [] => none
  | rg :: rest =>
    match allocFromRegion rg size align with
    | some alloc_start => some (rg, alloc_start, rest)
    | none =>
      match find_region size align rest with
      | some (r, a, rest2) => some (r, a, rg :: rest2)
      | none => none

/-- `Allocator::size_align(layout)`: raise the alignment to the node
alignment (`Layout::align_to`), pad the size to a multiple of it
(`pad_to_align`), and raise it to at least the node size. -/
def size_align (size align : ℕ) : ℕ × ℕ :=
  let align2 := max align nodeAlign
  (max (alignUp size align2) nodeSize, align2)

/-- The body of `GlobalAlloc::alloc` after the layout adjustment, at the
already adjusted `size` and `align`: find and unlink a region; if the
trailing excess is positive, push a new free node at `alloc_end` covering
exactly it. -/
def allocCore (size align : ℕ) (rs : List (ℕ × ℕ)) : Option ℕ × List (ℕ × ℕ) :=
  match find_region size align rs with
  | some (rg, alloc_start, rest) =>
    let alloc_end := alloc_start + size
    let excess := rg.1 + rg.2 - alloc_end
    if 0 < excess then (some alloc_start, add_free_region alloc_end excess rest)
    else (some alloc_start, rest)
  | none => (none, rs)

/-- `GlobalAlloc::alloc for Locked<Allocator>`: layout adjustment followed
by the find/split body; returns the allocated address (or `none` for the
null pointer) and the updated free list. -/
def listAlloc (size align : ℕ) (rs : List (ℕ × ℕ)) : Option ℕ × List (ℕ × ℕ) :=
  allocCore (size_align size align).1 (size_align size align).2 rs

/-- `GlobalAlloc::dealloc for Locked<Allocator>`: push a node of the
adjusted size at `ptr`. -/
def listDealloc (ptr size align : ℕ) (rs : List (ℕ × ℕ)) : List (ℕ × ℕ) :=
  add_free_region ptr (size_align size align).1 rs

/-- `ptr::copy_nonoverlapping(src, dst, n)` on the byte-level memory
model. -/
def copyMem (src dst n : ℕ) (mem : ℕ → ℕ) : ℕ → ℕ :=
  fun a => if dst ≤ a ∧ a < dst + n then mem (src + (a - dst)) else mem a

/-- `GlobalAlloc::realloc for Locked<Allocator>`: allocate with the new
size and the old alignment; on success copy `min(old size, new size)` bytes
and deallocate the old block; on failure return null and change nothing. -/
def listRealloc (ptr size align new_size : ℕ) (rs : List (ℕ × ℕ))
    (mem : ℕ → ℕ) : Option ℕ × List (ℕ × ℕ) × (ℕ → ℕ) :=
  match listAlloc new_size align rs with
  | (some new_ptr, rs2) =>
    (some new_ptr, listDealloc ptr size align rs2,
      copyMem ptr new_ptr (min size new_size) mem)
  | (none, rs2) => (none, rs2, mem)

/-- The acceptance condition stated by the claim (spec §4.4): the aligned
allocation fits in the region and the trailing excess is zero or at least
the node-header size. -/
def fits (rg : ℕ × ℕ) (size align : ℕ) : Prop :=
  alignUp rg.1 align + size ≤ rg.1 + rg.2 ∧
  (rg.1 + rg.2 - (alignUp rg.1 align + size) = 0 ∨
    nodeSize ≤ rg.1 + rg.2 - (alignUp rg.1 align + size))

instance fitsDecidable (rg : ℕ × ℕ) (size align : ℕ) :
    Decidable (fits rg size align) :=
  inferInstanceAs (Decidable (_ ∧ (_ ∨ _)))

end ListHeap

/-! ## Theorems: arithmetic helpers -/

theorem tzAux_mul_pow :
    ∀ (k fuel q : ℕ), q % 2 = 1 → 2 ^ k * q ≤ fuel → tzAux fuel (2 ^ k * q) = k := by
  intro k
  induction k with
  | zero =>
    intro fuel q hq hle
    have hq1 : 1 ≤ q := by omega
    cases fuel with
    | zero => omega
    | succ f =>
      have hc : (2 ^ 0 * q) % 2 = 1 ∨ 2 ^ 0 * q = 0 := by
        left; simpa using hq
      simp only [tzAux, if_pos hc]
  | succ k ih =>
    intro fuel q hq hle
    have hq1 : 1 ≤ q := by omega
    have hpow : 0 < 2 ^ k := Nat.pos_pow_of_pos k (by norm_num)
    have hval : 2 ^ (k + 1) * q = 2 * (2 ^ k * q) := by ring
    have hqpos : 0 < q := by omega
    have hposk : 0 < 2 ^ k * q := Nat.mul_pos hpow hqpos
    cases fuel with
    | zero => omega
    | succ f =>
      have hcond : ¬((2 ^ (k + 1) * q) % 2 = 1 ∨ 2 ^ (k + 1) * q = 0) := by
        push_neg
        omega
      have hdiv : 2 ^ (k + 1) * q / 2 = 2 ^ k * q := by omega
      have hle2 : 2 ^ k * q ≤ f := by omega
      simp only [tzAux, if_neg hcond, hdiv, ih f q hq hle2]

theorem trailingZeros_mul_pow {k q : ℕ} (hq : q % 2 = 1) :
    trailingZeros (2 ^ k * q) = k := by
  have hpos : 0 < 2 ^ k * q :=
    Nat.mul_pos (Nat.pos_pow_of_pos k (by norm_num)) (by omega)
  unfold trailingZeros
  rw [if_neg (by omega)]
  exact tzAux_mul_pow k (2 ^ k * q) q hq le_rfl

theorem trailingZeros_two_pow (k : ℕ) : trailingZeros (2 ^ k) = k := by
  simpa using @trailingZeros_mul_pow k 1 rfl

theorem exists_odd_decomp {n : ℕ} (h : 0 < n) :
    ∃ k q, q % 2 = 1 ∧ n = 2 ^ k * q := by
  obtain ⟨k, m, hodd, rfl⟩ := Nat.exists_eq_two_pow_mul_odd (Nat.pos_iff_ne_zero.mp h)
  exact ⟨k, m, Nat.odd_iff.mp hodd, rfl⟩

theorem two_pow_trailingZeros_dvd {n : ℕ} (h : 0 < n) :
    2 ^ trailingZeros n ∣ n := by
  obtain ⟨k, q, hq, rfl⟩ := exists_odd_decomp h
  rw [trailingZeros_mul_pow hq]
  exact Dvd.intro q rfl

theorem np2Aux_pow : ∀ fuel n, ∃ k, np2Aux fuel n = 2 ^ k := by
  intro fuel
  induction fuel with
  | zero => intro n; exact ⟨0, rfl⟩
  | succ f ih =>
    intro n
    by_cases h : n ≤ 1
    · exact ⟨0, by simp [np2Aux, h]⟩
    · obtain ⟨k, hk⟩ := ih ((n + 1) / 2)
      exact ⟨k + 1, by simp [np2Aux, h, hk]; ring⟩

theorem nextPow2_pow (n : ℕ) : ∃ k, nextPow2 n = 2 ^ k :=
  np2Aux_pow n n

theorem nextPow2_pos (n : ℕ) : 0 < nextPow2 n := by
  obtain ⟨k, hk⟩ := nextPow2_pow n
  rw [hk]
  positivity

theorem nextPow2_eq_pow_tz (n : ℕ) :
    nextPow2 n = 2 ^ trailingZeros (nextPow2 n) := by
  obtain ⟨k, hk⟩ := nextPow2_pow n
  rw [hk, trailingZeros_two_pow]

theorem log2Aux_le : ∀ fuel n, 0 < n → n ≤ fuel → 2 ^ log2Aux fuel n ≤ n := by
  intro fuel
  induction fuel with
  | zero => intro n h1 h2; omega
  | succ f ih =>
    intro n h1 h2
    by_cases h : n < 2
    · simp [log2Aux, h]; omega
    · have hd1 : 0 < n / 2 := by omega
      have hd2 : n / 2 ≤ f := by omega
      have := ih (n / 2) hd1 hd2
      simp only [log2Aux, if_neg h, pow_succ]
      omega

theorem prevPowerOfTwo_le {n : ℕ} (h : 0 < n) : prevPowerOfTwo n ≤ n :=
  log2Aux_le n n h le_rfl

theorem prevPowerOfTwo_pos (n : ℕ) : 0 < prevPowerOfTwo n := by
  unfold prevPowerOfTwo; positivity

theorem log2Aux_two_pow : ∀ fuel k, 2 ^ k ≤ fuel → log2Aux fuel (2 ^ k) = k := by
  intro fuel
  induction fuel with
  | zero => intro k hk; exfalso; have := Nat.pos_pow_of_pos k (show 0 < 2 by norm_num); omega
  | succ f ih =>
    intro k hk
    cases k with
    | zero => simp [log2Aux]
    | succ k' =>
      have h2 : ¬(2 ^ (k' + 1) < 2) := by
        have : (2 : ℕ) ^ 1 ≤ 2 ^ (k' + 1) := Nat.pow_le_pow_right (by norm_num) (by omega)
        simpa using this
      have hdiv : 2 ^ (k' + 1) / 2 = 2 ^ k' := by
        rw [pow_succ]; omega
      have hle : 2 ^ k' ≤ f := by
        have : 2 ^ k' < 2 ^ (k' + 1) := Nat.pow_lt_pow_right (by norm_num) (by omega)
        omega
      simp only [log2Aux, if_neg h2, hdiv, ih k' hle]

theorem floorLog2_two_pow (k : ℕ) : floorLog2 (2 ^ k) = k :=
  log2Aux_two_pow (2 ^ k) k le_rfl

theorem min_two_pow (a b : ℕ) : min (2 ^ a) (2 ^ b) = 2 ^ min a b := by
  rcases le_total a b with h | h
  · rw [min_eq_left (Nat.pow_le_pow_right (by norm_num) h), min_eq_left h]
  · rw [min_eq_right (Nat.pow_le_pow_right (by norm_num) h), min_eq_right h]

theorem testBit_pred_pow_sub :
    ∀ m y, y < 2 ^ m →
      ∀ i, Nat.testBit ((2 ^ m - 1) - y) i = (decide (i < m) && !Nat.testBit y i) := by
  intro m
  induction m with
  | zero =>
    intro y hy i
    have : y = 0 := by omega
    subst this
    simp [Nat.zero_testBit]
  | succ m ih =>
    intro y hy i
    have hy2 : y / 2 < 2 ^ m := by
      have : 2 ^ (m + 1) = 2 * 2 ^ m := by rw [pow_succ]; ring
      omega
    have hval : (2 ^ (m + 1) - 1) - y = 2 * ((2 ^ m - 1) - y / 2) + (1 - y % 2) := by
      have hp : 2 ^ (m + 1) = 2 * 2 ^ m := by rw [pow_succ]; ring
      have h2 : y % 2 < 2 := Nat.mod_lt _ (by norm_num)
      have hdm := Nat.div_add_mod y 2
      have hpp : 0 < 2 ^ m := Nat.pos_pow_of_pos m (by norm_num)
      omega
    cases i with
    | zero =>
      rw [hval, Nat.testBit_zero, Nat.testBit_zero]
      rcases Nat.mod_two_eq_zero_or_one y with h | h <;> (simp [h]; try omega)
    | succ j =>
      rw [hval, Nat.testBit_succ, Nat.testBit_succ]
      have hdiv : (2 * ((2 ^ m - 1) - y / 2) + (1 - y % 2)) / 2 = (2 ^ m - 1) - y / 2 := by
        omega
      rw [hdiv, ih (y / 2) hy2 j]
      simp [Nat.succ_lt_succ_iff]

theorem testBit_succ_of_even {x : ℕ} (hx : x % 2 = 0) :
    ∀ j, 1 ≤ j → Nat.testBit (x + 1) j = Nat.testBit x j := by
  intro j hj
  cases j with
  | zero => omega
  | succ i =>
    rw [Nat.testBit_succ, Nat.testBit_succ]
    have : (x + 1) / 2 = x / 2 := by omega
    rw [this]

theorem lowBit_eq {p : ℕ} (h0 : 0 < p) (h64 : p < 2 ^ 64) :
    lowBit p = 2 ^ trailingZeros p := by
  obtain ⟨k, q, hq, rfl⟩ := exists_odd_decomp h0
  rw [trailingZeros_mul_pow hq]
  have hq1 : 1 ≤ q := by omega
  have hklt : 2 ^ k < 2 ^ 64 := lt_of_le_of_lt (Nat.le_mul_of_pos_right _ (by omega)) h64
  have hk64 : k < 64 := by
    by_contra hcon
    exact absurd (Nat.pow_le_pow_right (show 1 ≤ 2 by norm_num) (not_lt.mp hcon)) (not_le.mpr hklt)
  have hqlt : q < 2 ^ (64 - k) := by
    have hsplit : 2 ^ 64 = 2 ^ k * 2 ^ (64 - k) := by
      rw [← pow_add]; congr 1; omega
    rw [hsplit] at h64
    exact Nat.lt_of_mul_lt_mul_left h64
  have hfac : 2 ^ 64 - 2 ^ k * q = 2 ^ k * (2 ^ (64 - k) - q) := by
    have hsplit : 2 ^ 64 = 2 ^ k * 2 ^ (64 - k) := by
      rw [← pow_add]; congr 1; omega
    rw [hsplit, Nat.mul_sub_left_distrib]
  unfold lowBit
  have hsub_lt : 2 ^ 64 - 2 ^ k * q < 2 ^ 64 := by
    have : 0 < 2 ^ k * q := by positivity
    have : 2 ^ 64 > 0 := by positivity
    omega
  rw [Nat.mod_eq_of_lt hsub_lt, hfac]
  apply Nat.eq_of_testBit_eq
  intro i
  rw [Nat.testBit_and, Nat.testBit_mul_pow_two, Nat.testBit_mul_pow_two]
  rcases lt_trichotomy i k with hik | rfl | hik
  · have h1 : ¬(k ≤ i) := by omega
    simp [h1, Nat.testBit_two_pow_of_ne (show k ≠ i by omega)]
  · have hsub2 : 2 ^ (64 - i) - q = ((2 ^ (64 - i) - 1) - (q - 1)) := by omega
    rw [hsub2]
    have hbit : Nat.testBit ((2 ^ (64 - i) - 1) - (q - 1)) 0 =
        (decide ((0 : ℕ) < 64 - i) && !Nat.testBit (q - 1) 0) :=
      testBit_pred_pow_sub (64 - i) (q - 1) (by omega) 0
    have hq10 : (q - 1) % 2 = 0 := by omega
    have hpos : (0 : ℕ) < 64 - i := by omega
    simp [hbit, Nat.testBit_zero, hq, hq10, hpos, Nat.testBit_two_pow_self]
  · have h1 : k ≤ i := by omega
    have hij : i - k ≥ 1 := by omega
    have hsub2 : 2 ^ (64 - k) - q = ((2 ^ (64 - k) - 1) - (q - 1)) := by omega
    rw [hsub2, testBit_pred_pow_sub (64 - k) (q - 1) (by omega) (i - k)]
    have hqq : Nat.testBit q (i - k) = Nat.testBit (q - 1) (i - k) := by
      have hq2 : (q - 1) % 2 = 0 := by omega
      have hq3 : q - 1 + 1 = q := by omega
      rw [← hq3]
      exact testBit_succ_of_even hq2 (i - k) hij
    rw [Nat.testBit_two_pow_of_ne (show k ≠ i by omega)]
    simp [h1, hqq]
    intro hb _
    simp [hb]

theorem xor_two_pow_of_even {p k : ℕ} (h : 2 ^ (k + 1) ∣ p) :
    p ^^^ 2 ^ k = p + 2 ^ k := by
  obtain ⟨m, rfl⟩ := h
  have hrw2 : 2 ^ (k + 1) * m + 2 ^ k = 2 ^ k * (2 * m + 1) := by ring
  have hrw : 2 ^ (k + 1) * m = 2 ^ k * (2 * m) := by ring
  rw [hrw2, hrw]
  apply Nat.eq_of_testBit_eq
  intro i
  rw [Nat.testBit_xor, Nat.testBit_mul_pow_two, Nat.testBit_mul_pow_two]
  rcases lt_trichotomy i k with hik | rfl | hik
  · have h1 : ¬(k ≤ i) := by omega
    simp [h1, Nat.testBit_two_pow_of_ne (show k ≠ i by omega)]
  · have e1 : (2 * m) % 2 = 0 := by omega
    have e2 : (2 * m + 1) % 2 = 1 := by omega
    simp [Nat.testBit_two_pow_self, Nat.testBit_zero, e1, e2]
  · have h1 : k ≤ i := by omega
    have hik1 : 1 ≤ i - k := by omega
    rw [Nat.testBit_two_pow_of_ne (show k ≠ i by omega)]
    have : Nat.testBit (2 * m + 1) (i - k) = Nat.testBit (2 * m) (i - k) :=
      testBit_succ_of_even (by omega) (i - k) hik1
    simp [h1, this]

theorem xor_two_pow_of_odd {p k q : ℕ} (hq : q % 2 = 1) (hp : p = 2 ^ k * q) :
    p ^^^ 2 ^ k = p - 2 ^ k := by
  subst hp
  have hq1 : 1 ≤ q := by omega
  have hrw : 2 ^ k * q - 2 ^ k = 2 ^ k * (q - 1) := by
    rw [Nat.mul_sub_left_distrib, mul_one]
  rw [hrw]
  apply Nat.eq_of_testBit_eq
  intro i
  rw [Nat.testBit_xor, Nat.testBit_mul_pow_two, Nat.testBit_mul_pow_two]
  rcases lt_trichotomy i k with hik | rfl | hik
  · have h1 : ¬(k ≤ i) := by omega
    simp [h1, Nat.testBit_two_pow_of_ne (show k ≠ i by omega)]
  · have e1 : (q - 1) % 2 = 0 := by omega
    simp [Nat.testBit_two_pow_self, Nat.testBit_zero, hq, e1]
  · have h1 : k ≤ i := by omega
    have hik1 : 1 ≤ i - k := by omega
    rw [Nat.testBit_two_pow_of_ne (show k ≠ i by omega)]
    have hqq : Nat.testBit q (i - k) = Nat.testBit (q - 1) (i - k) := by
      have hq3 : q - 1 + 1 = q := by omega
      rw [← hq3]
      exact testBit_succ_of_even (by omega) (i - k) hik1
    simp [h1, hqq]

/-! ## Theorems: Boolean state equality bridges -/

theorem FrameAllocator.flEqB_iff (f g : FrameAllocator.FreeLists) :
    ∀ n, FrameAllocator.flEqB f g n = true ↔
      ∀ k, k < n → FrameAllocator.getFL f k = FrameAllocator.getFL g k := by
  intro n
  induction n with
  | zero => simp [FrameAllocator.flEqB]
  | succ m ih =>
    simp only [FrameAllocator.flEqB, Bool.and_eq_true, decide_eq_true_eq, ih]
    constructor
    · rintro ⟨h1, h2⟩ k hk
      rcases Nat.lt_succ_iff_lt_or_eq.mp hk with h | rfl
      · exact h2 k h
      · exact h1
    · intro h
      exact ⟨h m (Nat.lt_succ_self m), fun k hk => h k (hk.trans (Nat.lt_succ_self m))⟩

theorem FrameAllocator.flEqB_32_iff (f g : FrameAllocator.FreeLists) :
    FrameAllocator.flEqB f g 32 = true ↔ f = g := by
  rw [FrameAllocator.flEqB_iff]
  constructor
  · intro h
    funext i
    have := h i.val i.isLt
    simpa [FrameAllocator.getFL, i.isLt] using this
  · rintro rfl k _
    rfl

theorem FrameAllocator.beqFA_iff {s t : FrameAllocator} :
    FrameAllocator.beqFA s t = true ↔ s = t := by
  cases s; cases t
  simp [FrameAllocator.beqFA, FrameAllocator.flEqB_32_iff, FrameAllocator.mk.injEq, and_assoc]

theorem FrameAllocator.beqOFA_iff {o p : Option FrameAllocator} :
    FrameAllocator.beqOFA o p = true ↔ o = p := by
  cases o <;> cases p <;> simp [FrameAllocator.beqOFA, FrameAllocator.beqFA_iff]

/-! ## Claim C1 and C3: the concrete frame-allocator scenarios -/

/-- If one alloc/dealloc iteration maps `s` back to `s`, so do `n` of them. -/
theorem FrameAllocator.iterAllocDealloc_fixed {c : ℕ} {s : FrameAllocator}
    (h : FrameAllocator.allocDeallocStep c s = some s) :
    ∀ n, FrameAllocator.iterAllocDealloc c n s = some s := by
  intro n
  induction n with
  | zero => rfl
  | succ m ih => simp [FrameAllocator.iterAllocDealloc, ih, h]

/-- C1: starting from `FrameAllocator::new()` followed by `add_frame(0, 1024)`,
each of 100 successive `{ a = alloc(512); dealloc(a, 512) }` iterations has a
successful alloc (`iterAllocDealloc` yields `none` as soon as one alloc
fails), and after the 100 iterations the allocator state — all 32 free-list
sets and both counters — equals the state just after `add_frame(0, 1024)`. -/
theorem claim_C1 :
    FrameAllocator.iterAllocDealloc 512 100 (FrameAllocator.new.add_frame 0 1024) =
      some (FrameAllocator.new.add_frame 0 1024) :=
  @FrameAllocator.iterAllocDealloc_fixed 512 (FrameAllocator.new.add_frame 0 1024)
    (FrameAllocator.beqOFA_iff.mp rfl) 100

/-- C3: after `FrameAllocator::new()` and `insert(0..3)`, the calls
`alloc(1), alloc(2), alloc(1), alloc(2)` return
`Some(2), Some(0), None, None` in that order. -/
theorem claim_C3 :
    (((FrameAllocator.new.insertRange 0 3).alloc 1).1 = some 2) ∧
    ((((FrameAllocator.new.insertRange 0 3).alloc 1).2.alloc 2).1 = some 0) ∧
    (((((FrameAllocator.new.insertRange 0 3).alloc 1).2.alloc 2).2.alloc 1).1 = none) ∧
    ((((((FrameAllocator.new.insertRange 0 3).alloc 1).2.alloc 2).2.alloc 1).2.alloc 2).1 =
      none) := by
  refine ⟨by decide, by decide, by decide, by decide⟩

/-! ## Theorems: basic facts about the free-list array and the alloc scan -/

namespace FrameAllocator

theorem insertS_ne_nil (x : ℕ) (l : List ℕ) : insertS x l ≠ [] := by
  cases l with
  | nil => simp [insertS]
  | cons y ys =>
    simp only [insertS]
    split
    · simp
    · split <;> simp

theorem getFL_setFL_self {fl : FreeLists} {k : ℕ} (t : List ℕ) (h : k < 32) :
    getFL (setFL fl k t) k = t := by
  simp [getFL, setFL, h]

theorem getFL_setFL_ne {fl : FreeLists} {k k' : ℕ} (t : List ℕ) (h : k' ≠ k) :
    getFL (setFL fl k t) k' = getFL fl k' := by
  unfold getFL setFL
  split
  · simp [h]
  · rfl

theorem lt_32_of_getFL_ne_nil {fl : FreeLists} {k : ℕ} (h : getFL fl k ≠ []) :
    k < 32 := by
  by_contra hk
  exact h (by simp [getFL, hk])

theorem splitRange_self (cls : ℕ) : splitRange cls cls = [] := by
  simp [splitRange]

theorem splitRange_cons {cls j : ℕ} (h : cls < j) :
    splitRange cls j = j :: splitRange cls (j - 1) := by
  unfold splitRange
  have h1 : j - cls = (j - 1 - cls) + 1 := by omega
  rw [h1, List.range'_1_concat]
  have h2 : cls + 1 + (j - 1 - cls) = j := by omega
  rw [h2, List.reverse_append, List.reverse_singleton]
  rfl

theorem splitSeq_succ :
    ∀ (d cls : ℕ) (fl : FreeLists), getFL fl (cls + d) ≠ [] →
      (splitSeq (splitRange cls (cls + d)) fl).2 = true ∧
      getFL ((splitSeq (splitRange cls (cls + d)) fl).1) cls ≠ [] := by
  intro d
  induction d with
  | zero =>
    intro cls fl h
    simpa [splitRange_self, splitSeq] using h
  | succ d ih =>
    intro cls fl h
    have hj : cls < cls + (d + 1) := by omega
    have hlt : cls + (d + 1) < 32 := lt_32_of_getFL_ne_nil h
    obtain ⟨b, tl, hbt⟩ : ∃ b tl, getFL fl (cls + (d + 1)) = b :: tl := by
      cases hx : getFL fl (cls + (d + 1)) with
      | nil => exact absurd hx h
      | cons b tl => exact ⟨b, tl, rfl⟩
    rw [splitRange_cons hj]
    simp only [splitSeq, hbt]
    have hsub : cls + (d + 1) - 1 = cls + d := by omega
    rw [hsub]
    apply ih cls
    have hne : cls + d ≠ cls + (d + 1) := by omega
    unfold splitStep
    rw [hsub, getFL_setFL_ne _ hne, getFL_setFL_self _ (by omega)]
    exact insertS_ne_nil _ _

theorem allocScan_none_of_empty :
    ∀ (is : List ℕ) (cls : ℕ) (fl : FreeLists),
      (∀ j ∈ is, getFL fl j = []) → allocScan cls is fl = (none, fl) := by
  intro is
  induction is with
  | nil => intro cls fl _; rfl
  | cons i rest ih =>
    intro cls fl h
    have hi : getFL fl i = [] := h i (by simp)
    simp only [allocScan, if_pos hi]
    exact ih cls fl (fun j hj => h j (by simp [hj]))

theorem allocScan_some :
    ∀ (n i cls : ℕ) (fl : FreeLists), cls ≤ i →
      (∃ j, j ∈ List.range' i n ∧ getFL fl j ≠ []) →
      ∃ r fl', allocScan cls (List.range' i n) fl = (some r, fl') := by
  intro n
  induction n with
  | zero =>
    intro i cls fl _ h
    obtain ⟨j, hj, _⟩ := h
    simp at hj
  | succ n ih =>
    intro i cls fl hcls h
    show ∃ r fl', allocScan cls (i :: List.range' (i + 1) n) fl = (some r, fl')
    by_cases he : getFL fl i = []
    · simp only [allocScan, if_pos he]
      apply ih (i + 1) cls fl (by omega)
      obtain ⟨j, hj, hne⟩ := h
      rcases List.mem_cons.mp hj with rfl | hj'
      · exact absurd he hne
      · exact ⟨j, hj', hne⟩
    · have hii : cls + (i - cls) = i := by omega
      have hsp := splitSeq_succ (i - cls) cls fl (by rw [hii]; exact he)
      rw [hii] at hsp
      rcases hspv : splitSeq (splitRange cls i) fl with ⟨fl2, b⟩
      rw [hspv] at hsp
      obtain ⟨hb, hne2⟩ := hsp
      simp only at hb hne2
      subst hb
      obtain ⟨r, tl, hrt⟩ : ∃ r tl, getFL fl2 cls = r :: tl := by
        cases hx : getFL fl2 cls with
        | nil => exact absurd hx hne2
        | cons r tl => exact ⟨r, tl, rfl⟩
      refine ⟨r, setFL fl2 cls (removeS r (getFL fl2 cls)), ?_⟩
      simp only [allocScan, if_neg he, hspv, hrt]

end FrameAllocator

theorem floorLog2_nextPow2 (c : ℕ) :
    floorLog2 (nextPow2 c) = trailingZeros (nextPow2 c) := by
  obtain ⟨k, hk⟩ := nextPow2_pow c
  rw [hk, floorLog2_two_pow, trailingZeros_two_pow]

/-- C6: `alloc(count)` returns `None` exactly when every free-list set at the
classes `k₀ = log₂(count.next_power_of_two())` through `31` is empty, and in
that case the allocator state (all free lists and both counters) is
unchanged. -/
theorem claim_C6 (s : FrameAllocator) (c : ℕ) :
    (((s.alloc c).1 = none) ↔
      ∀ k, floorLog2 (nextPow2 c) ≤ k → k < 32 →
        FrameAllocator.getFL s.free_list k = []) ∧
    ((s.alloc c).1 = none → (s.alloc c).2 = s) := by
  rw [floorLog2_nextPow2]
  rcases hres : FrameAllocator.allocScan (trailingZeros (nextPow2 c))
      (List.range' (trailingZeros (nextPow2 c)) (32 - trailingZeros (nextPow2 c)))
      s.free_list with ⟨o, fl2⟩
  have halloc : s.alloc c =
      (match (o, fl2) with
        | (some r, fl') =>
          (some r, ⟨fl', s.allocated + nextPow2 c, s.total⟩)
        | (none, fl') => (none, ⟨fl', s.allocated, s.total⟩)) := by
    rw [← hres]
    rfl
  cases o with
  | some r =>
    rw [halloc]
    constructor
    · constructor
      · intro h; exact Option.noConfusion h
      · intro hall
        exfalso
        have hempty := FrameAllocator.allocScan_none_of_empty
          (List.range' (trailingZeros (nextPow2 c)) (32 - trailingZeros (nextPow2 c)))
          (trailingZeros (nextPow2 c)) s.free_list
          (fun j hj => by
            obtain ⟨h1, h2⟩ := List.mem_range'_1.mp hj
            exact hall j h1 (by omega))
        rw [hres] at hempty
        exact Option.noConfusion (congrArg Prod.fst hempty)
    · intro h; exact Option.noConfusion h
  | none =>
    rw [halloc]
    have hempty : ∀ k, trailingZeros (nextPow2 c) ≤ k → k < 32 →
        FrameAllocator.getFL s.free_list k = [] := by
      intro k h1 h2
      by_contra hne
      obtain ⟨r, fl', hsome⟩ := FrameAllocator.allocScan_some
        (32 - trailingZeros (nextPow2 c)) (trailingZeros (nextPow2 c))
        (trailingZeros (nextPow2 c)) s.free_list le_rfl
        ⟨k, List.mem_range'_1.mpr ⟨h1, by omega⟩, hne⟩
      rw [hres] at hsome
      exact Option.noConfusion (congrArg Prod.fst hsome)
    have hfl : fl2 = s.free_list := by
      have h2 := FrameAllocator.allocScan_none_of_empty
        (List.range' (trailingZeros (nextPow2 c)) (32 - trailingZeros (nextPow2 c)))
        (trailingZeros (nextPow2 c)) s.free_list
        (fun j hj => by
          obtain ⟨h1, h2⟩ := List.mem_range'_1.mp hj
          exact hempty j h1 (by omega))
      rw [hres] at h2
      exact ((Prod.mk.injEq _ _ _ _).mp h2).2
    subst hfl
    exact ⟨⟨fun _ => hempty, fun _ => rfl⟩, fun _ => rfl⟩

/-- Witness for C6 at the empty allocator and `count = 1`. -/
theorem claim_C6_witness :
    ((FrameAllocator.new.alloc 1).1 = none) ∧
      (FrameAllocator.new.alloc 1).2 = FrameAllocator.new := by
  have h := claim_C6 FrameAllocator.new 1
  have hnone : (FrameAllocator.new.alloc 1).1 = none :=
    h.1.mpr (fun k _ h2 => by simp [FrameAllocator.getFL, FrameAllocator.new, h2])
  exact ⟨hnone, h.2 hnone⟩

/-- C10: `alloc(0)` behaves exactly as a request for one frame: it equals
`alloc(1)` (since `0.next_power_of_two() = 1`), succeeds whenever any
free-list set is non-empty, incrementing `allocated` by 1; symmetrically
`dealloc(frame, 0)` equals `dealloc(frame, 1)`. -/
theorem claim_C10 (s : FrameAllocator) (p : ℕ) :
    s.alloc 0 = s.alloc 1 ∧ s.dealloc p 0 = s.dealloc p 1 ∧
    ((∃ k, k < 32 ∧ FrameAllocator.getFL s.free_list k ≠ []) →
      ∃ q s', s.alloc 0 = (some q, s') ∧ s'.allocated = s.allocated + 1) := by
  refine ⟨rfl, rfl, ?_⟩
  rintro ⟨k, hk, hne⟩
  obtain ⟨r, fl', hscan⟩ := FrameAllocator.allocScan_some 32 0 0 s.free_list
    (Nat.zero_le 0) ⟨k, List.mem_range'_1.mpr ⟨Nat.zero_le k, by omega⟩, hne⟩
  have halloc : s.alloc 0 =
      (match FrameAllocator.allocScan 0 (List.range' 0 32) s.free_list with
        | (some r, fl') => (some r, ⟨fl', s.allocated + 1, s.total⟩)
        | (none, fl') => (none, ⟨fl', s.allocated, s.total⟩)) := rfl
  refine ⟨r, ⟨fl', s.allocated + 1, s.total⟩, ?_, rfl⟩
  rw [halloc, hscan]

/-- Witness for C10 after `insert(0..3)`. -/
theorem claim_C10_witness :
    ∃ q s', (FrameAllocator.new.insertRange 0 3).alloc 0 = (some q, s') ∧
      s'.allocated = (FrameAllocator.new.insertRange 0 3).allocated + 1 :=
  (claim_C10 (FrameAllocator.new.insertRange 0 3) 0).2.2
    ⟨0, by norm_num, by decide⟩

/-! ## Claim C2: the `add_frame` decomposition orders -/

/-- Counterexample to C2 as stated: at `add_frame(0, 1024)` the claimed order
for the first pushed block (position `p = 0`) is
`min(ORDER-1, floor_log2(1024)) = 10`, so the claim entails that frame `0` is
pushed onto free-list `10`; but the source code computes `low_bit = 32`
(the value, i.e. `2^5`) at `p = 0` and pushes frame `0` onto free-list `5`,
leaving free-list `10` empty. -/
theorem claim_C2_counterexample :
    claimK 0 1024 = 10 ∧
    FrameAllocator.getFL (FrameAllocator.new.add_frame 0 1024).free_list 10 = [] ∧
    0 ∈ FrameAllocator.getFL (FrameAllocator.new.add_frame 0 1024).free_list 5 :=
  ⟨by decide, by decide, by decide⟩

/-- One iteration of the `add_frame` loop: for `p < e ≤ 2^31` it pushes a
block of `2^codeK p e` frames at `p` onto free-list `codeK p e` and advances
by that block size. -/
theorem addFrameLoop_step (fuel : ℕ) (fl : FrameAllocator.FreeLists) (p e acc : ℕ)
    (hpe : p < e) (he : e ≤ 2 ^ 31) :
    FrameAllocator.addFrameLoop (fuel + 1) fl p e acc =
      FrameAllocator.addFrameLoop fuel
        (FrameAllocator.setFL fl (codeK p e)
          (insertS p (FrameAllocator.getFL fl (codeK p e))))
        (p + 2 ^ codeK p e) e (acc + 2 ^ codeK p e) := by
  have hlow : (if 0 < p then lowBit p else 32) =
      2 ^ (if 0 < p then trailingZeros p else 5) := by
    by_cases hp : 0 < p
    · have hp64 : p < 2 ^ 64 := by
        have h1 : (2 : ℕ) ^ 31 < 2 ^ 64 := by norm_num
        omega
      simp [hp, lowBit_eq hp hp64]
    · norm_num [hp]
  have hsize : min (if 0 < p then lowBit p else 32) (prevPowerOfTwo (e - p)) =
      2 ^ codeK p e := by
    rw [hlow]
    unfold prevPowerOfTwo
    rw [min_two_pow]
    rfl
  simp only [FrameAllocator.addFrameLoop, if_pos hpe, hsize, trailingZeros_two_pow]

/-- C2 (amended): for ranges with `end ≤ 2^31` (so that every order stays
below 32, where the Rust array indexing would panic, and the two's-complement
low-bit trick is exact), each iteration of the `add_frame` loop at position
`p` pushes one block of exactly `2^k` frames onto free-list `k` and advances
`p` by `2^k`, where `k = codeK p e = min(trailing_zeros(p) if p > 0 else 5,
floor_log2(e - p))` — i.e. the claim's formula with the `p = 0` low bit being
the value `32 = 2^5` rather than order `ORDER-1`. -/
theorem claim_C2_amended (fuel : ℕ) (fl : FrameAllocator.FreeLists) (p e acc : ℕ)
    (hpe : p < e) (he : e ≤ 2 ^ 31) :
    FrameAllocator.addFrameLoop (fuel + 1) fl p e acc =
      FrameAllocator.addFrameLoop fuel
        (FrameAllocator.setFL fl (codeK p e)
          (insertS p (FrameAllocator.getFL fl (codeK p e))))
        (p + 2 ^ codeK p e) e (acc + 2 ^ codeK p e) :=
  addFrameLoop_step fuel fl p e acc hpe he

/-- Witness for the amended C2 at the first iteration of `add_frame(0, 1024)`
from the empty free lists. -/
theorem claim_C2_amended_witness :
    FrameAllocator.addFrameLoop 1024 (fun _ => []) 0 1024 0 =
      FrameAllocator.addFrameLoop 1023
        (FrameAllocator.setFL (fun _ => []) (codeK 0 1024)
          (insertS 0 (FrameAllocator.getFL (fun _ => []) (codeK 0 1024))))
        (0 + 2 ^ codeK 0 1024) 1024 (0 + 2 ^ codeK 0 1024) :=
  claim_C2_amended 1023 (fun _ => []) 0 1024 0 (by norm_num) (by norm_num)

/-! ## Theorems: covered-frames bookkeeping -/

namespace FrameAllocator

theorem mem_frames {x p n : ℕ} : x ∈ frames p n ↔ p ≤ x ∧ x < p + n := by
  simp [frames, List.mem_range'_1]

theorem frames_card (p n : ℕ) : Multiset.card (frames p n) = n := by
  simp [frames]

theorem frames_nodup (p n : ℕ) : (frames p n).Nodup := by
  unfold frames
  rw [Multiset.coe_nodup]
  exact List.nodup_range' _ _

theorem frames_add (p m n : ℕ) : frames p (m + n) = frames p m + frames (p + m) n := by
  have h := List.range'_append p m n 1
  rw [one_mul] at h
  unfold frames
  rw [add_comm m n, ← h]
  rfl

theorem insertS_coe {x : ℕ} : ∀ (l : List ℕ), x ∉ l →
    ((insertS x l : List ℕ) : Multiset ℕ) = x ::ₘ (l : Multiset ℕ) := by
  intro l
  induction l with
  | nil => intro _; rfl
  | cons y ys ih =>
    intro h
    have h2 : ¬(x = y) := fun hxy => h (by simp [hxy])
    have h3 : x ∉ ys := fun hys => h (by simp [hys])
    rw [insertS]
    by_cases h1 : x < y
    · rw [if_pos h1]
      rfl
    · rw [if_neg h1, if_neg h2]
      show (y ::ₘ (insertS x ys : Multiset ℕ)) = x ::ₘ y ::ₘ (ys : Multiset ℕ)
      rw [ih h3, Multiset.cons_swap]

theorem removeS_coe {x : ℕ} : ∀ (l : List ℕ), x ∈ l →
    (l : Multiset ℕ) = x ::ₘ ((removeS x l : List ℕ) : Multiset ℕ) := by
  intro l
  induction l with
  | nil => intro h; cases h
  | cons y ys ih =>
    intro h
    rw [removeS]
    by_cases h1 : y = x
    · rw [if_pos h1, h1]
      rfl
    · rw [if_neg h1]
      have h2 : x ∈ ys := by
        rcases List.mem_cons.mp h with rfl | h2
        · exact absurd rfl h1
        · exact h2
      show (y ::ₘ (ys : Multiset ℕ)) = x ::ₘ y ::ₘ ((removeS x ys : List ℕ) : Multiset ℕ)
      rw [ih h2, Multiset.cons_swap]

theorem mem_insertS {x z : ℕ} : ∀ (l : List ℕ), z ∈ insertS x l → z = x ∨ z ∈ l := by
  intro l
  induction l with
  | nil => intro h; simpa [insertS] using h
  | cons y ys ih =>
    intro h
    rw [insertS] at h
    by_cases h1 : x < y
    · rw [if_pos h1] at h
      rcases List.mem_cons.mp h with rfl | h2
      · exact Or.inl rfl
      · exact Or.inr h2
    · rw [if_neg h1] at h
      by_cases h2 : x = y
      · rw [if_pos h2] at h
        exact Or.inr h
      · rw [if_neg h2] at h
        rcases List.mem_cons.mp h with rfl | h3
        · exact Or.inr (by simp)
        · rcases ih h3 with h4 | h4
          · exact Or.inl h4
          · exact Or.inr (by simp [h4])

theorem mem_removeS {x z : ℕ} : ∀ (l : List ℕ), z ∈ removeS x l → z ∈ l := by
  intro l
  induction l with
  | nil => intro h; simp [removeS] at h
  | cons y ys ih =>
    intro h
    rw [removeS] at h
    by_cases h1 : y = x
    · rw [if_pos h1] at h
      exact List.mem_cons_of_mem _ h
    · rw [if_neg h1] at h
      rcases List.mem_cons.mp h with rfl | h2
      · simp
      · exact List.mem_cons_of_mem _ (ih h2)

theorem mem_removeS_of_ne {x z : ℕ} : ∀ (l : List ℕ), z ∈ l → z ≠ x → z ∈ removeS x l := by
  intro l
  induction l with
  | nil => intro h; cases h
  | cons y ys ih =>
    intro h hne
    rw [removeS]
    by_cases h1 : y = x
    · rw [if_pos h1]
      rcases List.mem_cons.mp h with rfl | h2
      · exact absurd h1 hne
      · exact h2
    · rw [if_neg h1]
      rcases List.mem_cons.mp h with rfl | h2
      · simp
      · exact List.mem_cons_of_mem _ (ih h2 hne)

theorem getFL_eq {fl : FreeLists} {k : ℕ} (h : k < 32) : getFL fl k = fl ⟨k, h⟩ :=
  dif_pos h

theorem setFL_apply_ne {fl : FreeLists} {k : ℕ} {t : List ℕ} {j : Fin 32}
    (h : j.val ≠ k) : setFL fl k t j = fl j := by
  simp [setFL, h]

theorem setFL_apply_self {fl : FreeLists} {k : ℕ} {t : List ℕ} (h : k < 32) :
    setFL fl k t ⟨k, h⟩ = t := by
  simp [setFL]

theorem coveredFL_setFL_eq {fl : FreeLists} {k : ℕ} (hk : k < 32) (t : List ℕ) :
    coveredFL (setFL fl k t) +
      ((fl ⟨k, hk⟩ : Multiset ℕ)).bind (fun p => frames p (2 ^ k)) =
    coveredFL fl + ((t : Multiset ℕ)).bind (fun p => frames p (2 ^ k)) := by
  unfold coveredFL
  rw [← Finset.add_sum_erase _ _ (Finset.mem_univ (⟨k, hk⟩ : Fin 32)),
      ← Finset.add_sum_erase _ _ (Finset.mem_univ (⟨k, hk⟩ : Fin 32))]
  have hsum : ∑ j ∈ Finset.univ.erase (⟨k, hk⟩ : Fin 32),
      ((setFL fl k t j : Multiset ℕ)).bind (fun p => frames p (2 ^ j.val)) =
      ∑ j ∈ Finset.univ.erase (⟨k, hk⟩ : Fin 32),
      ((fl j : Multiset ℕ)).bind (fun p => frames p (2 ^ j.val)) := by
    apply Finset.sum_congr rfl
    intro j hj
    have hne : j.val ≠ k := by
      intro hv
      exact (Finset.mem_erase.mp hj).1 (Fin.ext hv)
    rw [setFL_apply_ne hne]
  rw [hsum, setFL_apply_self hk]
  abel

theorem coveredFL_insertS {fl : FreeLists} {k p : ℕ} (hk : k < 32)
    (hp : p ∉ getFL fl k) :
    coveredFL (setFL fl k (insertS p (getFL fl k))) =
      coveredFL fl + frames p (2 ^ k) := by
  rw [getFL_eq hk] at hp ⊢
  have h := @coveredFL_setFL_eq fl k hk (insertS p (fl ⟨k, hk⟩))
  rw [insertS_coe _ hp, Multiset.cons_bind] at h
  rw [← add_assoc] at h
  exact add_right_cancel h

theorem coveredFL_removeS {fl : FreeLists} {k p : ℕ} (hk : k < 32)
    (hp : p ∈ getFL fl k) :
    coveredFL (setFL fl k (removeS p (getFL fl k))) + frames p (2 ^ k) =
      coveredFL fl := by
  rw [getFL_eq hk] at hp ⊢
  have h := @coveredFL_setFL_eq fl k hk (removeS p (fl ⟨k, hk⟩))
  rw [removeS_coe _ hp, Multiset.cons_bind] at h
  rw [← add_assoc] at h
  exact add_right_cancel h

theorem alignedFL_setFL {fl : FreeLists} {k : ℕ} {t : List ℕ}
    (hal : AlignedFL fl) (ht : ∀ p ∈ t, 2 ^ k ∣ p) : AlignedFL (setFL fl k t) := by
  intro j p hp
  by_cases hj : j.val = k
  · unfold setFL at hp
    rw [if_pos hj] at hp
    rw [hj]
    exact ht p hp
  · unfold setFL at hp
    rw [if_neg hj] at hp
    exact hal j p hp

theorem le_count_bind {l : List ℕ} {p x : ℕ} (hp : p ∈ l) {f : ℕ → Multiset ℕ}
    (hx : x ∈ f p) :
    1 ≤ ((l : Multiset ℕ).bind f).count x := by
  rw [removeS_coe _ hp, Multiset.cons_bind, Multiset.count_add]
  have := Multiset.one_le_count_iff_mem.mpr hx
  omega

theorem bind_le_coveredFL {fl : FreeLists} {k : ℕ} (hk : k < 32) :
    ((fl ⟨k, hk⟩ : Multiset ℕ)).bind (fun p => frames p (2 ^ k)) ≤ coveredFL fl := by
  unfold coveredFL
  rw [← Finset.add_sum_erase _ _ (Finset.mem_univ (⟨k, hk⟩ : Fin 32))]
  exact Multiset.le_add_right _ _

theorem le_count_coveredFL {fl : FreeLists} {k p x : ℕ} (hk : k < 32)
    (hp : p ∈ getFL fl k) (hx : x ∈ frames p (2 ^ k)) :
    1 ≤ (coveredFL fl).count x := by
  rw [getFL_eq hk] at hp
  calc 1 ≤ (((fl ⟨k, hk⟩ : Multiset ℕ)).bind (fun q => frames q (2 ^ k))).count x :=
        le_count_bind hp hx
    _ ≤ (coveredFL fl).count x := Multiset.count_le_of_le x (bind_le_coveredFL hk)

theorem two_le_count_coveredFL {fl : FreeLists} {k1 k2 p1 p2 x : ℕ}
    (hk1 : k1 < 32) (hk2 : k2 < 32)
    (hp1 : p1 ∈ getFL fl k1) (hp2 : p2 ∈ getFL fl k2)
    (hne : ¬(k1 = k2 ∧ p1 = p2))
    (hx1 : x ∈ frames p1 (2 ^ k1)) (hx2 : x ∈ frames p2 (2 ^ k2)) :
    2 ≤ (coveredFL fl).count x := by
  by_cases hk : k1 = k2
  · subst hk
    have hpne : p1 ≠ p2 := fun h => hne ⟨rfl, h⟩
    rw [getFL_eq hk1] at hp1 hp2
    have key : 2 ≤ (((fl ⟨k1, hk1⟩ : Multiset ℕ)).bind
        (fun q => frames q (2 ^ k1))).count x := by
      rw [removeS_coe _ hp1, Multiset.cons_bind, Multiset.count_add]
      have hp2' : p2 ∈ removeS p1 (fl ⟨k1, hk1⟩) :=
        mem_removeS_of_ne _ hp2 hpne.symm
      have h1 : 1 ≤ (frames p1 (2 ^ k1)).count x :=
        Multiset.one_le_count_iff_mem.mpr hx1
      have h2 : 1 ≤ ((((removeS p1 (fl ⟨k1, hk1⟩) : List ℕ) : Multiset ℕ)).bind
          (fun q => frames q (2 ^ k1))).count x :=
        le_count_bind hp2' hx2
      omega
    calc 2 ≤ _ := key
      _ ≤ (coveredFL fl).count x := Multiset.count_le_of_le x (bind_le_coveredFL hk1)
  · rw [getFL_eq hk1] at hp1
    rw [getFL_eq hk2] at hp2
    have hfin : (⟨k1, hk1⟩ : Fin 32) ≠ ⟨k2, hk2⟩ := by
      intro h
      exact hk (congrArg Fin.val h)
    have hdecomp : ((fl ⟨k1, hk1⟩ : Multiset ℕ)).bind (fun p => frames p (2 ^ k1)) +
        ((fl ⟨k2, hk2⟩ : Multiset ℕ)).bind (fun p => frames p (2 ^ k2)) ≤
        coveredFL fl := by
      unfold coveredFL
      rw [← Finset.add_sum_erase _ _ (Finset.mem_univ (⟨k1, hk1⟩ : Fin 32))]
      have hmem2 : (⟨k2, hk2⟩ : Fin 32) ∈ Finset.univ.erase (⟨k1, hk1⟩ : Fin 32) :=
        Finset.mem_erase.mpr ⟨hfin.symm, Finset.mem_univ _⟩
      rw [← Finset.add_sum_erase _ _ hmem2]
      rw [← add_assoc]
      exact Multiset.le_add_right _ _
    have h1 : 1 ≤ (((fl ⟨k1, hk1⟩ : Multiset ℕ)).bind (fun q => frames q (2 ^ k1))).count x :=
      le_count_bind hp1 hx1
    have h2 : 1 ≤ (((fl ⟨k2, hk2⟩ : Multiset ℕ)).bind (fun q => frames q (2 ^ k2))).count x :=
      le_count_bind hp2 hx2
    have := Multiset.count_le_of_le x hdecomp
    rw [Multiset.count_add] at this
    omega

theorem not_mem_class_of_nodup {fl : FreeLists} {k p : ℕ} {X : Multiset ℕ}
    (hk : k < 32) (hnd : (coveredFL fl + X).Nodup) (hpX : p ∈ X) :
    p ∉ getFL fl k := by
  intro hp
  have h1 : 1 ≤ (coveredFL fl).count p :=
    le_count_coveredFL hk hp (mem_frames.mpr ⟨le_rfl, by
      have := Nat.pos_pow_of_pos k (show 0 < 2 by norm_num)
      omega⟩)
  have h2 : 1 ≤ X.count p := Multiset.one_le_count_iff_mem.mpr hpX
  have h3 := Multiset.nodup_iff_count_le_one.mp hnd p
  rw [Multiset.count_add] at h3
  omega

theorem mem_class_of_getFL {fl : FreeLists} {k p : ℕ} (h : k < 32)
    (hp : p ∈ getFL fl k) : p ∈ fl ⟨k, h⟩ := by
  rw [getFL_eq h] at hp
  exact hp

theorem nodup_no_two_blocks {fl : FreeLists} {X : Multiset ℕ} {k1 k2 p1 p2 x : ℕ}
    (hnd : (coveredFL fl + X).Nodup)
    (hk1 : k1 < 32) (hk2 : k2 < 32)
    (hp1 : p1 ∈ getFL fl k1) (hp2 : p2 ∈ getFL fl k2)
    (hne : ¬(k1 = k2 ∧ p1 = p2))
    (hx1 : x ∈ frames p1 (2 ^ k1)) (hx2 : x ∈ frames p2 (2 ^ k2)) : False := by
  have h2 := two_le_count_coveredFL hk1 hk2 hp1 hp2 hne hx1 hx2
  have h1 := Multiset.nodup_iff_count_le_one.mp hnd x
  rw [Multiset.count_add] at h1
  omega

theorem splitStep_facts {fl : FreeLists} {j b : ℕ} {X : Multiset ℕ}
    (hj : 0 < j) (hlt : j < 32) (hb : b ∈ getFL fl j)
    (hnd : (coveredFL fl + X).Nodup) (hal : AlignedFL fl) :
    coveredFL (splitStep j b fl) = coveredFL fl ∧
    AlignedFL (splitStep j b fl) ∧
    getFL (splitStep j b fl) (j - 1) ≠ [] := by
  have hj1 : j - 1 < 32 := by omega
  have hjne : j - 1 ≠ j := by omega
  have hbal : 2 ^ j ∣ b := hal ⟨j, hlt⟩ b (mem_class_of_getFL hlt hb)
  have hhalf : 2 ^ (j - 1) ∣ b := dvd_trans (pow_dvd_pow 2 (by omega)) hbal
  have hpow : 0 < 2 ^ (j - 1) := Nat.pos_pow_of_pos _ (by norm_num)
  have hpowlt : 2 ^ (j - 1) < 2 ^ j := Nat.pow_lt_pow_right (by norm_num) (by omega)
  have h2j : 2 ^ (j - 1) + 2 ^ (j - 1) = 2 ^ j := by
    have hje : j - 1 + 1 = j := by omega
    calc 2 ^ (j - 1) + 2 ^ (j - 1) = 2 ^ (j - 1) * 2 := by ring
      _ = 2 ^ (j - 1 + 1) := (pow_succ 2 (j - 1)).symm
      _ = 2 ^ j := by rw [hje]
  have hnm1 : b + 2 ^ (j - 1) ∉ getFL fl (j - 1) := by
    intro hmem
    exact nodup_no_two_blocks hnd hlt hj1 hb hmem
      (by rintro ⟨hc, -⟩; omega)
      (mem_frames.mpr ⟨by omega, by omega⟩)
      (mem_frames.mpr ⟨le_rfl, by omega⟩)
  have hnm2 : b ∉ getFL fl (j - 1) := by
    intro hmem
    exact nodup_no_two_blocks hnd hlt hj1 hb hmem
      (by rintro ⟨hc, -⟩; omega)
      (mem_frames.mpr ⟨le_rfl, by omega⟩)
      (mem_frames.mpr ⟨le_rfl, by omega⟩)
  unfold splitStep
  simp only
  set fl1 := setFL fl (j - 1) (insertS (b + 2 ^ (j - 1)) (getFL fl (j - 1))) with hfl1
  set fl2 := setFL fl1 (j - 1) (insertS b (getFL fl1 (j - 1))) with hfl2
  have hcov1 : coveredFL fl1 = coveredFL fl + frames (b + 2 ^ (j - 1)) (2 ^ (j - 1)) :=
    coveredFL_insertS hj1 hnm1
  have hal1 : AlignedFL fl1 := by
    apply alignedFL_setFL hal
    intro p hp
    rcases mem_insertS _ hp with rfl | hp2
    · exact dvd_add hhalf dvd_rfl
    · exact hal ⟨j - 1, hj1⟩ p (mem_class_of_getFL hj1 hp2)
  have hfl1at : getFL fl1 (j - 1) = insertS (b + 2 ^ (j - 1)) (getFL fl (j - 1)) := by
    rw [hfl1]
    exact getFL_setFL_self _ hj1
  have hbn1 : b ∉ getFL fl1 (j - 1) := by
    rw [hfl1at]
    intro hmem
    rcases mem_insertS _ hmem with heq | hmem2
    · omega
    · exact hnm2 hmem2
  have hcov2 : coveredFL fl2 = coveredFL fl1 + frames b (2 ^ (j - 1)) :=
    coveredFL_insertS hj1 hbn1
  have hal2 : AlignedFL fl2 := by
    apply alignedFL_setFL hal1
    intro p hp
    rcases mem_insertS _ hp with rfl | hp2
    · exact hhalf
    · exact hal1 ⟨j - 1, hj1⟩ p (mem_class_of_getFL hj1 hp2)
  have hfl2atj : getFL fl2 j = getFL fl j := by
    rw [hfl2, hfl1, getFL_setFL_ne _ hjne.symm, getFL_setFL_ne _ hjne.symm]
  have hbfl2 : b ∈ getFL fl2 j := by rw [hfl2atj]; exact hb
  have hcov3 : coveredFL (setFL fl2 j (removeS b (getFL fl2 j))) + frames b (2 ^ j) =
      coveredFL fl2 := coveredFL_removeS hlt hbfl2
  have hal3 : AlignedFL (setFL fl2 j (removeS b (getFL fl2 j))) := by
    apply alignedFL_setFL hal2
    intro p hp
    exact hal2 ⟨j, hlt⟩ p (mem_class_of_getFL hlt (mem_removeS _ hp))
  have hsplitf : frames b (2 ^ j) = frames b (2 ^ (j - 1)) + frames (b + 2 ^ (j - 1)) (2 ^ (j - 1)) := by
    rw [← h2j, frames_add]
  have hcovfin : coveredFL (setFL fl2 j (removeS b (getFL fl2 j))) = coveredFL fl := by
    have heq : coveredFL (setFL fl2 j (removeS b (getFL fl2 j))) + frames b (2 ^ j) =
        coveredFL fl + frames b (2 ^ j) := by
      rw [hcov3, hcov2, hcov1, hsplitf]
      abel
    exact add_right_cancel heq
  have hne3 : getFL (setFL fl2 j (removeS b (getFL fl2 j))) (j - 1) ≠ [] := by
    rw [getFL_setFL_ne _ hjne, hfl2, getFL_setFL_self _ hj1]
    exact insertS_ne_nil _ _
  exact ⟨hcovfin, hal3, hne3⟩

theorem splitSeq_inv :
    ∀ (d cls : ℕ) (fl : FreeLists) (X : Multiset ℕ),
      getFL fl (cls + d) ≠ [] →
      (coveredFL fl + X).Nodup →
      AlignedFL fl →
      (splitSeq (splitRange cls (cls + d)) fl).2 = true ∧
      coveredFL (splitSeq (splitRange cls (cls + d)) fl).1 = coveredFL fl ∧
      AlignedFL (splitSeq (splitRange cls (cls + d)) fl).1 ∧
      getFL (splitSeq (splitRange cls (cls + d)) fl).1 cls ≠ [] := by
  intro d
  induction d with
  | zero =>
    intro cls fl X hne hnd hal
    rw [Nat.add_zero] at hne ⊢
    rw [splitRange_self]
    exact ⟨rfl, rfl, hal, hne⟩
  | succ d ih =>
    intro cls fl X hne hnd hal
    have hj : cls < cls + (d + 1) := by omega
    have hlt : cls + (d + 1) < 32 := lt_32_of_getFL_ne_nil hne
    obtain ⟨b, tl, hbt⟩ : ∃ b tl, getFL fl (cls + (d + 1)) = b :: tl := by
      cases hx : getFL fl (cls + (d + 1)) with
      | nil => exact absurd hx hne
      | cons b tl => exact ⟨b, tl, rfl⟩
    have hbmem : b ∈ getFL fl (cls + (d + 1)) := by rw [hbt]; simp
    obtain ⟨hcov, hal3, hne3⟩ :=
      splitStep_facts (show 0 < cls + (d + 1) by omega) hlt hbmem hnd hal
    rw [splitRange_cons hj]
    simp only [splitSeq, hbt]
    have hsub : cls + (d + 1) - 1 = cls + d := by omega
    rw [hsub] at hne3
    rw [hsub]
    have hnd3 : (coveredFL (splitStep (cls + (d + 1)) b fl) + X).Nodup := by
      rw [hcov]
      exact hnd
    obtain ⟨r1, r2, r3, r4⟩ := ih cls (splitStep (cls + (d + 1)) b fl) X hne3 hnd3 hal3
    exact ⟨r1, by rw [r2, hcov], r3, r4⟩

theorem allocScan_inv :
    ∀ (n i cls : ℕ) (fl : FreeLists) (X : Multiset ℕ), cls ≤ i →
      (coveredFL fl + X).Nodup → AlignedFL fl →
      (∀ fl', allocScan cls (List.range' i n) fl = (none, fl') → fl' = fl) ∧
      (∀ r fl', allocScan cls (List.range' i n) fl = (some r, fl') →
        coveredFL fl' + frames r (2 ^ cls) = coveredFL fl ∧
        AlignedFL fl' ∧ 2 ^ cls ∣ r ∧ cls < 32) := by
  intro n
  induction n with
  | zero =>
    intro i cls fl X hcls hnd hal
    constructor
    · intro fl' h
      have h' : ((none : Option ℕ), fl) = (none, fl') := h
      exact (((Prod.mk.injEq _ _ _ _).mp h').2).symm
    · intro r fl' h
      have h' : ((none : Option ℕ), fl) = (some r, fl') := h
      have := ((Prod.mk.injEq _ _ _ _).mp h').1
      exact absurd this (by simp)
  | succ n ih =>
    intro i cls fl X hcls hnd hal
    by_cases he : getFL fl i = []
    · have hstep : allocScan cls (List.range' i (n + 1)) fl =
          allocScan cls (List.range' (i + 1) n) fl := by
        show allocScan cls (i :: List.range' (i + 1) n) fl = _
        simp only [allocScan, if_pos he]
      rw [hstep]
      exact ih (i + 1) cls fl X (by omega) hnd hal
    · have hii : cls + (i - cls) = i := by omega
      have hsp := splitSeq_inv (i - cls) cls fl X (by rw [hii]; exact he) hnd hal
      rw [hii] at hsp
      rcases hspv : splitSeq (splitRange cls i) fl with ⟨fl2, bb⟩
      rw [hspv] at hsp
      obtain ⟨hb, hcov2, hal2, hne2⟩ := hsp
      have hbb : bb = true := hb
      subst hbb
      obtain ⟨r0, tl0, hrt⟩ : ∃ r0 tl0, getFL fl2 cls = r0 :: tl0 := by
        cases hx : getFL fl2 cls with
        | nil => exact absurd hx hne2
        | cons r0 tl0 => exact ⟨r0, tl0, rfl⟩
      have hcls32 : cls < 32 := lt_32_of_getFL_ne_nil hne2
      have hr0mem : r0 ∈ getFL fl2 cls := by rw [hrt]; simp
      have hstep : allocScan cls (List.range' i (n + 1)) fl =
          (some r0, setFL fl2 cls (removeS r0 (getFL fl2 cls))) := by
        show allocScan cls (i :: List.range' (i + 1) n) fl = _
        simp only [allocScan, if_neg he, hspv, hrt]
      constructor
      · intro fl' h
        rw [hstep] at h
        have := ((Prod.mk.injEq _ _ _ _).mp h).1
        exact absurd this (by simp)
      · intro r fl' h
        rw [hstep] at h
        obtain ⟨h1, h2⟩ := (Prod.mk.injEq _ _ _ _).mp h
        have hr : r = r0 := by
          injection h1 with h1'
          exact h1'.symm
        subst hr
        subst h2
        refine ⟨?_, ?_, ?_, hcls32⟩
        · calc coveredFL (setFL fl2 cls (removeS r (getFL fl2 cls))) + frames r (2 ^ cls)
              = coveredFL fl2 := coveredFL_removeS hcls32 hr0mem
            _ = coveredFL fl := hcov2
        · apply alignedFL_setFL hal2
          intro p hp
          exact hal2 ⟨cls, hcls32⟩ p (mem_class_of_getFL hcls32 (mem_removeS _ hp))
        · exact hal2 ⟨cls, hcls32⟩ r (mem_class_of_getFL hcls32 hr0mem)

theorem codeK_facts {p e : ℕ} (hpe : p < e) (he : e ≤ 2 ^ 31) :
    2 ^ codeK p e ∣ p ∧ p + 2 ^ codeK p e ≤ e ∧ codeK p e < 32 := by
  have hle : 2 ^ codeK p e ≤ e - p := by
    have h1 : codeK p e ≤ floorLog2 (e - p) := min_le_right _ _
    calc 2 ^ codeK p e ≤ 2 ^ floorLog2 (e - p) :=
          Nat.pow_le_pow_right (by norm_num) h1
      _ ≤ e - p := prevPowerOfTwo_le (by omega)
  have hk32 : codeK p e < 32 := by
    by_contra hc
    have h1 : (2 : ℕ) ^ 32 ≤ 2 ^ codeK p e :=
      Nat.pow_le_pow_right (by norm_num) (by omega)
    have h2 : (2 : ℕ) ^ 32 = 2 * 2 ^ 31 := by norm_num
    omega
  refine ⟨?_, by omega, hk32⟩
  by_cases hp : 0 < p
  · have h1 : codeK p e ≤ trailingZeros p := by
      unfold codeK
      rw [if_pos hp]
      exact min_le_left _ _
    exact dvd_trans (pow_dvd_pow 2 h1) (two_pow_trailingZeros_dvd hp)
  · have : p = 0 := by omega
    rw [this]
    exact dvd_zero _

theorem addFrameLoop_inv :
    ∀ (fuel : ℕ) (p e acc : ℕ) (fl : FreeLists) (X : Multiset ℕ),
      p ≤ e → e ≤ 2 ^ 31 → e - p ≤ fuel →
      (coveredFL fl + frames p (e - p) + X).Nodup →
      AlignedFL fl →
      (addFrameLoop fuel fl p e acc).2 = acc + (e - p) ∧
      coveredFL (addFrameLoop fuel fl p e acc).1 = coveredFL fl + frames p (e - p) ∧
      AlignedFL (addFrameLoop fuel fl p e acc).1 := by
  intro fuel
  induction fuel with
  | zero =>
    intro p e acc fl X hpe he hf hnd hal
    have h0 : e - p = 0 := by omega
    rw [h0]
    refine ⟨by simp [addFrameLoop], ?_, hal⟩
    show coveredFL fl = coveredFL fl + frames p 0
    simp [frames]
  | succ fuel ih =>
    intro p e acc fl X hpe he hf hnd hal
    by_cases hlt : p < e
    · rw [addFrameLoop_step fuel fl p e acc hlt he]
      obtain ⟨hdvd, hfit, hk32⟩ := codeK_facts hlt he
      have hpos : 0 < 2 ^ codeK p e := Nat.pos_pow_of_pos _ (by norm_num)
      have hsplit : frames p (e - p) =
          frames p (2 ^ codeK p e) + frames (p + 2 ^ codeK p e) (e - (p + 2 ^ codeK p e)) := by
        have heq : e - p = 2 ^ codeK p e + (e - (p + 2 ^ codeK p e)) := by omega
        rw [heq, frames_add]
      have hpmem : p ∈ frames p (e - p) + X := by
        rw [Multiset.mem_add]
        exact Or.inl (mem_frames.mpr ⟨le_rfl, by omega⟩)
      have hnd' : (coveredFL fl + (frames p (e - p) + X)).Nodup := by
        rw [← add_assoc]
        exact hnd
      have hnotmem : p ∉ getFL fl (codeK p e) :=
        not_mem_class_of_nodup hk32 hnd' hpmem
      have hcovi : coveredFL (setFL fl (codeK p e) (insertS p (getFL fl (codeK p e)))) =
          coveredFL fl + frames p (2 ^ codeK p e) :=
        coveredFL_insertS hk32 hnotmem
      have hal1 : AlignedFL (setFL fl (codeK p e) (insertS p (getFL fl (codeK p e)))) := by
        apply alignedFL_setFL hal
        intro q hq
        rcases mem_insertS _ hq with rfl | hq2
        · exact hdvd
        · exact hal ⟨codeK p e, hk32⟩ q (mem_class_of_getFL hk32 hq2)
      have hnd2 : (coveredFL (setFL fl (codeK p e) (insertS p (getFL fl (codeK p e)))) +
          frames (p + 2 ^ codeK p e) (e - (p + 2 ^ codeK p e)) + X).Nodup := by
        have heqm : coveredFL (setFL fl (codeK p e) (insertS p (getFL fl (codeK p e)))) +
            frames (p + 2 ^ codeK p e) (e - (p + 2 ^ codeK p e)) + X =
            coveredFL fl + frames p (e - p) + X := by
          rw [hcovi, hsplit]
          abel
        rw [heqm]
        exact hnd
      obtain ⟨r1, r2, r3⟩ := ih (p + 2 ^ codeK p e) e (acc + 2 ^ codeK p e)
        (setFL fl (codeK p e) (insertS p (getFL fl (codeK p e)))) X
        (by omega) he (by omega) hnd2 hal1
      refine ⟨by rw [r1]; omega, ?_, r3⟩
      rw [r2, hcovi, hsplit]
      abel
    · have h0 : e - p = 0 := by omega
      have hstop : addFrameLoop (fuel + 1) fl p e acc = (fl, acc) := by
        simp only [addFrameLoop, if_neg hlt]
      rw [hstop, h0]
      refine ⟨by simp, ?_, hal⟩
      show coveredFL fl = coveredFL fl + frames p 0
      simp [frames]

theorem deallocSeq_inv :
    ∀ (n cls p : ℕ) (fl : FreeLists) (X : Multiset ℕ),
      cls + n = 32 → cls < 32 → 2 ^ cls ∣ p → p + 2 ^ cls ≤ 2 ^ 31 →
      (∀ x ∈ coveredFL fl, x < 2 ^ 31) →
      (coveredFL fl + frames p (2 ^ cls) + X).Nodup →
      AlignedFL fl →
      coveredFL (deallocSeq (List.range' cls n) p fl) =
        coveredFL fl + frames p (2 ^ cls) ∧
      AlignedFL (deallocSeq (List.range' cls n) p fl) := by
  intro n
  induction n with
  | zero =>
    intro cls p fl X h32 hcls _ _ _ _ _
    exact absurd h32 (by omega)
  | succ n ih =>
    intro cls p fl X h32 hcls hdvd hbound hcb hnd hal
    have hpos : 0 < 2 ^ cls := Nat.pos_pow_of_pos _ (by norm_num)
    have h2sum : 2 ^ cls + 2 ^ cls = 2 ^ (cls + 1) := by
      rw [pow_succ]
      ring
    have hshow : deallocSeq (List.range' cls (n + 1)) p fl =
        (if p ^^^ 2 ^ cls ∈ getFL fl cls then
          deallocSeq (List.range' (cls + 1) n) (min p (p ^^^ 2 ^ cls))
            (setFL fl cls (removeS (p ^^^ 2 ^ cls) (getFL fl cls)))
        else setFL fl cls (insertS p (getFL fl cls))) := rfl
    rw [hshow]
    obtain ⟨w, hw⟩ := hdvd
    by_cases hmem : p ^^^ 2 ^ cls ∈ getFL fl cls
    · rw [if_pos hmem]
      -- the buddy is free: merge
      have hbuddy : (p ^^^ 2 ^ cls = p + 2 ^ cls ∧ 2 ^ (cls + 1) ∣ p) ∨
          (p ^^^ 2 ^ cls = p - 2 ^ cls ∧ 2 ^ cls ≤ p ∧ 2 ^ (cls + 1) ∣ p - 2 ^ cls) := by
        rcases Nat.even_or_odd w with hev | hod
        · obtain ⟨m', hm'⟩ := hev
          have hp1 : 2 ^ (cls + 1) ∣ p :=
            ⟨m', by rw [hw, hm', pow_succ]; ring⟩
          exact Or.inl ⟨xor_two_pow_of_even hp1, hp1⟩
        · have hodd : w % 2 = 1 := Nat.odd_iff.mp hod
          have h1 : 2 ^ cls ≤ p := by
            rw [hw]
            have : 1 ≤ w := by omega
            calc 2 ^ cls = 2 ^ cls * 1 := by ring
              _ ≤ 2 ^ cls * w := Nat.mul_le_mul_left _ this
          have h2 : p - 2 ^ cls = 2 ^ cls * (w - 1) := by
            rw [hw, Nat.mul_sub_left_distrib]
            ring_nf
          have h3 : 2 ^ (cls + 1) ∣ p - 2 ^ cls := by
            have hwe : 2 ∣ (w - 1) := by omega
            obtain ⟨u, hu⟩ := hwe
            exact ⟨u, by rw [h2, hu, pow_succ]; ring⟩
          exact Or.inr ⟨xor_two_pow_of_odd hodd hw, h1, h3⟩
      -- bound for the buddy block
      have hbal : 2 ^ cls ∣ p ^^^ 2 ^ cls :=
        hal ⟨cls, hcls⟩ _ (mem_class_of_getFL hcls hmem)
      have hbbound : (p ^^^ 2 ^ cls) + 2 ^ cls ≤ 2 ^ 31 := by
        have hx : (p ^^^ 2 ^ cls) + 2 ^ cls - 1 ∈ frames (p ^^^ 2 ^ cls) (2 ^ cls) :=
          mem_frames.mpr ⟨by omega, by omega⟩
        have hcnt : 1 ≤ (coveredFL fl).count ((p ^^^ 2 ^ cls) + 2 ^ cls - 1) :=
          le_count_coveredFL hcls hmem hx
        have hmemc : (p ^^^ 2 ^ cls) + 2 ^ cls - 1 ∈ coveredFL fl := by
          rw [← Multiset.one_le_count_iff_mem]
          exact hcnt
        have := hcb _ hmemc
        omega
      -- merging facts, by parity
      have hkey :
          min p (p ^^^ 2 ^ cls) + 2 ^ (cls + 1) ≤ 2 ^ 31 ∧
          2 ^ (cls + 1) ∣ min p (p ^^^ 2 ^ cls) ∧
          frames (min p (p ^^^ 2 ^ cls)) (2 ^ (cls + 1)) =
            frames p (2 ^ cls) + frames (p ^^^ 2 ^ cls) (2 ^ cls) := by
        rcases hbuddy with ⟨heq, hdvd1⟩ | ⟨heq, hle1, hdvd1⟩
        · have hmin : min p (p ^^^ 2 ^ cls) = p := by
            rw [heq]
            exact min_eq_left (by omega)
          refine ⟨by omega, by rw [hmin]; exact hdvd1, ?_⟩
          rw [hmin, heq, ← h2sum, frames_add]
        · have hmin : min p (p ^^^ 2 ^ cls) = p - 2 ^ cls := by
            rw [heq]
            exact min_eq_right (by omega)
          have hpeq : (p - 2 ^ cls) + 2 ^ cls = p := by omega
          refine ⟨by omega, by rw [hmin]; exact hdvd1, ?_⟩
          rw [hmin, heq, ← h2sum, frames_add, hpeq]
          abel
      obtain ⟨hmbound, hmdvd, hmerge⟩ := hkey
      have hcovr : coveredFL (setFL fl cls (removeS (p ^^^ 2 ^ cls) (getFL fl cls))) +
          frames (p ^^^ 2 ^ cls) (2 ^ cls) = coveredFL fl :=
        coveredFL_removeS hcls hmem
      have hcls31 : cls < 31 := by
        by_contra hc
        have hc31 : cls = 31 := by omega
        subst hc31
        have hp0 : p = 0 := by omega
        subst hp0
        simp at hbound
        -- buddy = 2^31, but its block must fit under 2^31
        omega
      have hal1 : AlignedFL (setFL fl cls (removeS (p ^^^ 2 ^ cls) (getFL fl cls))) := by
        apply alignedFL_setFL hal
        intro q hq
        exact hal ⟨cls, hcls⟩ q (mem_class_of_getFL hcls (mem_removeS _ hq))
      have hcb1 : ∀ x ∈ coveredFL (setFL fl cls (removeS (p ^^^ 2 ^ cls) (getFL fl cls))),
          x < 2 ^ 31 := by
        intro x hx
        apply hcb
        rw [← hcovr, Multiset.mem_add]
        exact Or.inl hx
      have hnd1 : (coveredFL (setFL fl cls (removeS (p ^^^ 2 ^ cls) (getFL fl cls))) +
          frames (min p (p ^^^ 2 ^ cls)) (2 ^ (cls + 1)) + X).Nodup := by
        have heqm : coveredFL (setFL fl cls (removeS (p ^^^ 2 ^ cls) (getFL fl cls))) +
            frames (min p (p ^^^ 2 ^ cls)) (2 ^ (cls + 1)) + X =
            coveredFL fl + frames p (2 ^ cls) + X := by
          rw [hmerge, ← hcovr]
          abel
        rw [heqm]
        exact hnd
      obtain ⟨r1, r2⟩ := ih (cls + 1) (min p (p ^^^ 2 ^ cls))
        (setFL fl cls (removeS (p ^^^ 2 ^ cls) (getFL fl cls))) X
        (by omega) (by omega) hmdvd hmbound hcb1 hnd1 hal1
      refine ⟨?_, r2⟩
      rw [r1, hmerge, ← hcovr]
      abel
    · rw [if_neg hmem]
      have hpmem : p ∈ frames p (2 ^ cls) + X := by
        rw [Multiset.mem_add]
        exact Or.inl (mem_frames.mpr ⟨le_rfl, by omega⟩)
      have hnd' : (coveredFL fl + (frames p (2 ^ cls) + X)).Nodup := by
        rw [← add_assoc]
        exact hnd
      have hnotmem : p ∉ getFL fl cls := not_mem_class_of_nodup hcls hnd' hpmem
      refine ⟨coveredFL_insertS hcls hnotmem, ?_⟩
      apply alignedFL_setFL hal
      intro q hq
      rcases mem_insertS _ hq with rfl | hq2
      · exact ⟨w, hw⟩
      · exact hal ⟨cls, hcls⟩ q (mem_class_of_getFL hcls hq2)

/-! ### The inductive invariant -/

theorem coveredFL_new : coveredFL (fun _ => []) = 0 := by
  unfold coveredFL
  simp

theorem inv_new : Inv FrameAllocator.new ∅ 0 := by
  refine ⟨?_, ?_, ?_, ?_, ?_, ?_, ?_⟩
  · show (coveredFL (fun _ => []) + liveCov 0).Nodup
    rw [coveredFL_new]
    simp [liveCov]
  · intro x hx
    rw [show (FrameAllocator.new.free_list) = (fun _ => []) from rfl, coveredFL_new] at hx
    simp [liveCov] at hx
  · intro x hx
    simp at hx
  · intro k p hp
    simp [new] at hp
  · intro pc hpc
    simp at hpc
  · show Multiset.card (coveredFL (fun _ => [])) + 0 = 0
    rw [coveredFL_new]
    simp
  · rfl

theorem inv_add_frame {s : FrameAllocator} {fed : Set ℕ} {live : Multiset (ℕ × ℕ)}
    {a b : ℕ} (inv : Inv s fed live) (hab : a ≤ b) (hb31 : b ≤ 2 ^ 31)
    (hdisj : ∀ i, a ≤ i → i < b → i ∉ fed) :
    Inv (s.add_frame a b) (fed ∪ Set.Ico a b) live := by
  have hnd0 := inv.nodup
  have hfr : (frames a (b - a)).Nodup := frames_nodup _ _
  have hdisj2 : Disjoint (coveredFL s.free_list + liveCov live) (frames a (b - a)) := by
    rw [Multiset.disjoint_left]
    intro x hx1 hx2
    obtain ⟨hx3, hx4⟩ := mem_frames.mp hx2
    exact hdisj x hx3 (by omega) (inv.inFed x hx1)
  have hnd1 : (coveredFL s.free_list + frames a (b - a) + liveCov live).Nodup := by
    have h1 : (coveredFL s.free_list + liveCov live + frames a (b - a)).Nodup :=
      Multiset.nodup_add.mpr ⟨hnd0, hfr, hdisj2⟩
    have heq : coveredFL s.free_list + frames a (b - a) + liveCov live =
        coveredFL s.free_list + liveCov live + frames a (b - a) := by abel
    rw [heq]
    exact h1
  obtain ⟨racc, rcov, ral⟩ := addFrameLoop_inv (b - a) a b 0 s.free_list
    (liveCov live) hab hb31 le_rfl hnd1 inv.alignedF
  have hfl : (s.add_frame a b).free_list = (addFrameLoop (b - a) s.free_list a b 0).1 := rfl
  have htot : (s.add_frame a b).total = s.total + (addFrameLoop (b - a) s.free_list a b 0).2 := rfl
  have hald : (s.add_frame a b).allocated = s.allocated := rfl
  refine ⟨?_, ?_, ?_, ?_, ?_, ?_, ?_⟩
  · rw [hfl, rcov]
    have heq : coveredFL s.free_list + frames a (b - a) + liveCov live =
        coveredFL s.free_list + liveCov live + frames a (b - a) := by abel
    rw [heq]
    exact Multiset.nodup_add.mpr ⟨hnd0, hfr, hdisj2⟩
  · intro x hx
    rw [hfl, rcov] at hx
    rcases Multiset.mem_add.mp hx with hx1 | hx1
    · rcases Multiset.mem_add.mp hx1 with hx2 | hx2
      · exact Or.inl (inv.inFed x (Multiset.mem_add.mpr (Or.inl hx2)))
      · obtain ⟨h1, h2⟩ := mem_frames.mp hx2
        exact Or.inr (Set.mem_Ico.mpr ⟨h1, by omega⟩)
    · exact Or.inl (inv.inFed x (Multiset.mem_add.mpr (Or.inr hx1)))
  · intro x hx
    rcases hx with hx | hx
    · exact inv.fedBound x hx
    · obtain ⟨-, h2⟩ := Set.mem_Ico.mp hx
      omega
  · rw [hfl]
    exact ral
  · exact inv.alignedL
  · rw [hfl, rcov, htot, hald, racc, Multiset.card_add, frames_card]
    have := inv.countEq
    omega
  · rw [hald]
    exact inv.allocEq

theorem inv_alloc {s : FrameAllocator} {fed : Set ℕ} {live : Multiset (ℕ × ℕ)}
    {c p : ℕ} (inv : Inv s fed live) (hsome : (s.alloc c).1 = some p) :
    Inv (s.alloc c).2 fed ((p, c) ::ₘ live) := by
  rcases hres : allocScan (trailingZeros (nextPow2 c))
      (List.range' (trailingZeros (nextPow2 c)) (32 - trailingZeros (nextPow2 c)))
      s.free_list with ⟨o, fl2⟩
  have halloc : s.alloc c =
      (match (o, fl2) with
        | (some r, fl') => (some r, ⟨fl', s.allocated + nextPow2 c, s.total⟩)
        | (none, fl') => (none, ⟨fl', s.allocated, s.total⟩)) := by
    rw [← hres]
    rfl
  cases o with
  | none =>
    rw [halloc] at hsome
    exact absurd hsome (by simp)
  | some r =>
    rw [halloc] at hsome
    have hrp : r = p := by
      injection hsome
    subst hrp
    obtain ⟨hcov, hal2, hdvd, hcls32⟩ :=
      (allocScan_inv (32 - trailingZeros (nextPow2 c)) (trailingZeros (nextPow2 c))
        (trailingZeros (nextPow2 c)) s.free_list (liveCov live) le_rfl
        inv.nodup inv.alignedF).2 r fl2 hres
    have hnp : nextPow2 c = 2 ^ trailingZeros (nextPow2 c) := nextPow2_eq_pow_tz c
    have hstate : (s.alloc c).2 = ⟨fl2, s.allocated + nextPow2 c, s.total⟩ := by
      rw [halloc]
    have hlive : liveCov ((r, c) ::ₘ live) = frames r (nextPow2 c) + liveCov live := by
      unfold liveCov
      rw [Multiset.cons_bind]
    have htoteq : coveredFL fl2 + liveCov ((r, c) ::ₘ live) =
        coveredFL s.free_list + liveCov live := by
      rw [hlive, hnp, ← hcov]
      abel
    refine ⟨?_, ?_, ?_, ?_, ?_, ?_, ?_⟩
    · rw [hstate]
      show (coveredFL fl2 + liveCov ((r, c) ::ₘ live)).Nodup
      rw [htoteq]
      exact inv.nodup
    · intro x hx
      rw [hstate] at hx
      rw [show ((⟨fl2, s.allocated + nextPow2 c, s.total⟩ : FrameAllocator).free_list) = fl2
        from rfl, htoteq] at hx
      exact inv.inFed x hx
    · exact inv.fedBound
    · rw [hstate]
      exact hal2
    · intro pc hpc
      rcases Multiset.mem_cons.mp hpc with rfl | hpc2
      · show nextPow2 c ∣ r
        rw [hnp]
        exact hdvd
      · exact inv.alignedL pc hpc2
    · rw [hstate]
      show Multiset.card (coveredFL fl2) + (s.allocated + nextPow2 c) = s.total
      have h1 : Multiset.card (coveredFL fl2) + 2 ^ trailingZeros (nextPow2 c) =
          Multiset.card (coveredFL s.free_list) := by
        rw [← hcov, Multiset.card_add, frames_card]
      have h2 := inv.countEq
      omega
    · rw [hstate]
      show s.allocated + nextPow2 c = (((r, c) ::ₘ live).map fun pc => nextPow2 pc.2).sum
      rw [Multiset.map_cons, Multiset.sum_cons]
      show s.allocated + nextPow2 c = nextPow2 c + (live.map fun pc => nextPow2 pc.2).sum
      have := inv.allocEq
      omega

theorem inv_dealloc {s : FrameAllocator} {fed : Set ℕ} {live : Multiset (ℕ × ℕ)}
    {c p : ℕ} (inv : Inv s fed live) (hmem : (p, c) ∈ live) :
    Inv (s.dealloc p c) fed (live.erase (p, c)) := by
  have hcons : (p, c) ::ₘ live.erase (p, c) = live := Multiset.cons_erase hmem
  have hlivesplit : liveCov live = frames p (nextPow2 c) + liveCov (live.erase (p, c)) := by
    conv_lhs => rw [← hcons]
    unfold liveCov
    rw [Multiset.cons_bind]
  have hnp : nextPow2 c = 2 ^ trailingZeros (nextPow2 c) := nextPow2_eq_pow_tz c
  have hnppos : 0 < nextPow2 c := nextPow2_pos c
  have hdvd : 2 ^ trailingZeros (nextPow2 c) ∣ p := by
    rw [← hnp]
    exact inv.alignedL (p, c) hmem
  have hxmem : p + nextPow2 c - 1 ∈ coveredFL s.free_list + liveCov live := by
    rw [Multiset.mem_add, hlivesplit, Multiset.mem_add]
    exact Or.inr (Or.inl (mem_frames.mpr ⟨by omega, by omega⟩))
  have hbound : p + nextPow2 c ≤ 2 ^ 31 := by
    have := inv.fedBound _ (inv.inFed _ hxmem)
    omega
  have hcls : trailingZeros (nextPow2 c) < 32 := by
    by_contra hc
    have h1 : (2 : ℕ) ^ 32 ≤ 2 ^ trailingZeros (nextPow2 c) :=
      Nat.pow_le_pow_right (by norm_num) (by omega)
    have h2 : (2 : ℕ) ^ 32 = 2 * 2 ^ 31 := by norm_num
    omega
  have hcb : ∀ x ∈ coveredFL s.free_list, x < 2 ^ 31 := by
    intro x hx
    exact inv.fedBound x (inv.inFed x (Multiset.mem_add.mpr (Or.inl hx)))
  have hnd : (coveredFL s.free_list + frames p (2 ^ trailingZeros (nextPow2 c)) +
      liveCov (live.erase (p, c))).Nodup := by
    have heq : coveredFL s.free_list + frames p (2 ^ trailingZeros (nextPow2 c)) +
        liveCov (live.erase (p, c)) = coveredFL s.free_list + liveCov live := by
      rw [hlivesplit, ← hnp]
      abel
    rw [heq]
    exact inv.nodup
  obtain ⟨rcov, ral⟩ := deallocSeq_inv (32 - trailingZeros (nextPow2 c))
    (trailingZeros (nextPow2 c)) p s.free_list (liveCov (live.erase (p, c)))
    (by omega) hcls hdvd (by omega) hcb hnd inv.alignedF
  have hfl : (s.dealloc p c).free_list =
      deallocSeq (List.range' (trailingZeros (nextPow2 c))
        (32 - trailingZeros (nextPow2 c))) p s.free_list := rfl
  have hald : (s.dealloc p c).allocated = s.allocated - nextPow2 c := rfl
  have htot : (s.dealloc p c).total = s.total := rfl
  have hsum : s.allocated = nextPow2 c + ((live.erase (p, c)).map fun pc => nextPow2 pc.2).sum := by
    have h1 := inv.allocEq
    rw [← hcons, Multiset.map_cons, Multiset.sum_cons] at h1
    exact h1
  have htoteq : coveredFL (s.dealloc p c).free_list + liveCov (live.erase (p, c)) =
      coveredFL s.free_list + liveCov live := by
    rw [hfl, rcov, hlivesplit, ← hnp]
    abel
  refine ⟨?_, ?_, ?_, ?_, ?_, ?_, ?_⟩
  · rw [htoteq]
    exact inv.nodup
  · intro x hx
    rw [htoteq] at hx
    exact inv.inFed x hx
  · exact inv.fedBound
  · rw [hfl]
    exact ral
  · intro pc hpc
    exact inv.alignedL pc (Multiset.mem_of_mem_erase hpc)
  · rw [hfl, rcov, htot, hald, Multiset.card_add, frames_card]
    have h2 := inv.countEq
    omega
  · rw [hald]
    omega

/-- Every reachable state satisfies the inductive invariant. -/
theorem reach_inv {s : FrameAllocator} {fed : Set ℕ} {live : Multiset (ℕ × ℕ)}
    (h : Reach s fed live) : Inv s fed live := by
  induction h with
  | new => exact inv_new
  | add _ hab hb31 hdisj ih => exact inv_add_frame ih hab hb31 hdisj
  | insertR _ hab hb31 hdisj ih => exact inv_add_frame ih hab hb31 hdisj
  | allocStep _ hsome ih => exact inv_alloc ih hsome
  | deallocStep _ hmem ih => exact inv_dealloc ih hmem

theorem coveredFL_card (fl : FreeLists) :
    Multiset.card (coveredFL fl) = ∑ k : Fin 32, 2 ^ k.val * (fl k).length := by
  unfold coveredFL
  rw [map_sum Multiset.card _ Finset.univ]
  apply Finset.sum_congr rfl
  intro k _
  rw [Multiset.card_bind]
  have hcongr : ((fl k : Multiset ℕ)).map (fun p => Multiset.card (frames p (2 ^ k.val))) =
      ((fl k : Multiset ℕ)).map (fun _ => 2 ^ k.val) := by
    apply Multiset.map_congr rfl
    intro x _
    rw [frames_card]
  show (((fl k : Multiset ℕ)).map fun p => Multiset.card (frames p (2 ^ k.val))).sum = _
  rw [hcongr, Multiset.map_const', Multiset.sum_replicate]
  show Multiset.card (fl k : Multiset ℕ) • 2 ^ k.val = 2 ^ k.val * (fl k).length
  have : Multiset.card (fl k : Multiset ℕ) = (fl k).length := rfl
  rw [this, smul_eq_mul, Nat.mul_comm]

end FrameAllocator

/-- Counterexample to C4 as stated: with unbounded feeds, conservation
fails in the code.  Feeding `[2^32, 2^32 + 2^31)` and `[2^32 + 2^31, 2^33)`
(non-overlapping, panic-free: both blocks land on class 31) gives
`free_list[31] = {2^32, 2^32 + 2^31}` and `total = 2^32`; `alloc(2^31)`
returns frame `2^32`; the matching `dealloc(2^32, 2^31)` removes the buddy
`2^32 + 2^31` from class 31 and the coalescing loop exits at
`current_class = 32` without reinserting the merged block.  All free lists
end empty with `allocated = 0`, so covered + allocated `= 0 ≠ 2^32 =`
total. -/
theorem claim_C4_counterexample :
    (((FrameAllocator.new.add_frame (2 ^ 32) (2 ^ 32 + 2 ^ 31)).add_frame
        (2 ^ 32 + 2 ^ 31) (2 ^ 33)).alloc (2 ^ 31)).1 = some (2 ^ 32) ∧
    (∑ k : Fin 32,
        2 ^ k.val * (FrameAllocator.dropScenario.free_list k).length) +
        FrameAllocator.dropScenario.allocated ≠
      FrameAllocator.dropScenario.total :=
  ⟨by decide, by decide⟩

/-- C4 (amended): conservation holds on the `2^31`-bounded envelope — in
every state reachable from `new()` by `add_frame`/`insert` calls on
non-overlapping ranges ending at or below `2^31`, successful allocs, and
deallocs that exactly match a live allocation, the number of frames covered
by the blocks on the 32 free-list sets (an entry at class `k` covering
`2^k` frames) plus the `allocated` counter equals the `total` counter.  The
bound is what the original claim is missing: it keeps every dealloc merge
chain below class 32, where the source's coalescing loop exits and silently
drops the merged block, losing its frames. -/
theorem claim_C4_amended {s : FrameAllocator} {fed : Set ℕ} {live : Multiset (ℕ × ℕ)}
    (h : FrameAllocator.Reach s fed live) :
    (∑ k : Fin 32, 2 ^ k.val * (s.free_list k).length) + s.allocated = s.total := by
  have inv := FrameAllocator.reach_inv h
  have hc := inv.countEq
  rw [FrameAllocator.coveredFL_card] at hc
  exact hc

theorem claim_C4_amended_witness :
    (∑ k : Fin 32, 2 ^ k.val *
        ((((FrameAllocator.new.add_frame 0 1024).alloc 512).2).free_list k).length) +
      (((FrameAllocator.new.add_frame 0 1024).alloc 512).2).allocated =
      (((FrameAllocator.new.add_frame 0 1024).alloc 512).2).total := by
  have h1 : FrameAllocator.Reach (FrameAllocator.new.add_frame 0 1024)
      (∅ ∪ Set.Ico 0 1024) 0 :=
    FrameAllocator.Reach.add FrameAllocator.Reach.new (by norm_num) (by norm_num)
      (by simp)
  exact claim_C4_amended (@FrameAllocator.Reach.allocStep _ _ _ 512 512 h1 (by decide))

/-! ## Claim C5: the alloc/dealloc round trip -/

namespace FrameAllocator

theorem insertS_nil (x : ℕ) : insertS x [] = [x] := rfl

theorem insertS_cons_lt {x y : ℕ} (l : List ℕ) (h : x < y) :
    insertS x (y :: l) = x :: y :: l := by
  simp [insertS, h]

theorem insertS_of_forall_lt {x : ℕ} (l : List ℕ) (h : ∀ y ∈ l, x < y) :
    insertS x l = x :: l := by
  cases l with
  | nil => rfl
  | cons y ys => exact insertS_cons_lt ys (h y (by simp))

theorem removeS_cons_self (x : ℕ) (l : List ℕ) : removeS x (x :: l) = l := by
  simp [removeS]

/-- Pointwise description of one split-loop iteration. -/
theorem getFL_splitStep {fl : FreeLists} {j b : ℕ} (hj1 : 1 ≤ j) (hj32 : j < 32)
    (k : ℕ) :
    getFL (splitStep j b fl) k =
      if k = j then removeS b (getFL fl j)
      else if k = j - 1 then insertS b (insertS (b + 2 ^ (j - 1)) (getFL fl (j - 1)))
      else getFL fl k := by
  unfold splitStep
  by_cases h1 : k = j
  · rw [if_pos h1, h1, getFL_setFL_self _ hj32,
      getFL_setFL_ne _ (show j ≠ j - 1 by omega),
      getFL_setFL_ne _ (show j ≠ j - 1 by omega)]
  · rw [if_neg h1, getFL_setFL_ne _ h1]
    by_cases h2 : k = j - 1
    · rw [if_pos h2, h2, getFL_setFL_self _ (show j - 1 < 32 by omega),
        getFL_setFL_self _ (show j - 1 < 32 by omega)]
    · rw [if_neg h2, getFL_setFL_ne _ h2, getFL_setFL_ne _ h2]

/-- Exact effect of the inner split loop run from class `cls + d` down to
`cls` when the classes strictly below the starting one are empty: the least
block `B` of class `cls + d` is removed there and its successive halves are
scattered, leaving `[B, B + 2^cls]` at class `cls` and the single upper half
`[B + 2^k]` at each intermediate class `k`. -/
theorem splitSeq_shape :
    ∀ (d cls : ℕ) (fl : FreeLists) (B : ℕ) (tl : List ℕ),
      (∀ j, cls ≤ j → j < cls + d → getFL fl j = []) →
      getFL fl (cls + d) = B :: tl →
      cls + d < 32 →
      ∃ fl1, splitSeq (splitRange cls (cls + d)) fl = (fl1, true) ∧
        ∀ k, getFL fl1 k =
          if cls ≤ k ∧ k < cls + d then
            (if k = cls then [B, B + 2 ^ cls] else [B + 2 ^ k])
          else if k = cls + d then (if d = 0 then B :: tl else tl)
          else getFL fl k := by
  intro d
  induction d with
  | zero =>
    intro cls fl B tl hempty hhead h32
    rw [Nat.add_zero] at hhead ⊢
    refine ⟨fl, by rw [splitRange_self]; rfl, ?_⟩
    intro k
    by_cases h1 : k = cls
    · rw [if_neg (by omega), if_pos h1, if_pos rfl, h1]
      exact hhead
    · rw [if_neg (by omega), if_neg h1]
  | succ d ih =>
    intro cls fl B tl hempty hhead h32
    have hj : cls < cls + (d + 1) := by omega
    have hsub : cls + (d + 1) - 1 = cls + d := by omega
    rw [splitRange_cons hj]
    simp only [splitSeq, hhead]
    rw [hsub]
    have hA := fun k => @getFL_splitStep fl (cls + (d + 1)) B (by omega) h32 k
    simp only [hsub] at hA
    have hemp : getFL fl (cls + d) = [] := hempty _ (by omega) (by omega)
    have hpos : 0 < 2 ^ (cls + d) := Nat.pos_pow_of_pos _ (by norm_num)
    have hA1 : getFL (splitStep (cls + (d + 1)) B fl) (cls + d) =
        B :: [B + 2 ^ (cls + d)] := by
      rw [hA (cls + d), if_neg (by omega), if_pos rfl, hemp, insertS_nil,
        insertS_cons_lt _ (by omega)]
    have hA2 : getFL (splitStep (cls + (d + 1)) B fl) (cls + (d + 1)) = tl := by
      rw [hA (cls + (d + 1)), if_pos rfl, hhead, removeS_cons_self]
    have hA3 : ∀ k, k ≠ cls + d → k ≠ cls + (d + 1) →
        getFL (splitStep (cls + (d + 1)) B fl) k = getFL fl k := by
      intro k hk1 hk2
      rw [hA k, if_neg hk2, if_neg hk1]
    obtain ⟨fl1, hsplit, hpt⟩ := ih cls (splitStep (cls + (d + 1)) B fl) B
      [B + 2 ^ (cls + d)]
      (fun j hj1 hj2 => by
        rw [hA3 j (by omega) (by omega)]
        exact hempty j hj1 (by omega))
      hA1 (by omega)
    refine ⟨fl1, hsplit, ?_⟩
    intro k
    rw [hpt k]
    by_cases h2 : cls ≤ k ∧ k < cls + d
    · rw [if_pos h2, if_pos (show cls ≤ k ∧ k < cls + (d + 1) by omega)]
    · by_cases h1 : k = cls + d
      · by_cases hd : d = 0
        · rw [if_neg h2, if_pos h1, if_pos hd, h1, hd,
            if_pos (show cls ≤ cls + 0 ∧ cls + 0 < cls + (0 + 1) by omega),
            if_pos (show cls + 0 = cls by omega)]
          simp only [Nat.add_zero]
        · rw [if_neg h2, if_pos h1, if_neg hd,
            if_pos (show cls ≤ k ∧ k < cls + (d + 1) by omega),
            if_neg (show ¬ k = cls by omega), h1]
      · by_cases h3 : k = cls + (d + 1)
        · rw [if_neg h2, if_neg h1, h3, hA2,
            if_neg (show ¬(cls ≤ cls + (d + 1) ∧ cls + (d + 1) < cls + (d + 1)) by
              omega),
            if_pos rfl, if_neg (show ¬(d + 1 = 0) by omega)]
        · rw [if_neg h2, if_neg h1, hA3 k h1 h3,
            if_neg (show ¬(cls ≤ k ∧ k < cls + (d + 1)) by omega), if_neg h3]

/-- Exact effect of a successful `alloc` scan: the least block `r` of the
first non-empty class `i0 ≥ cls` is removed, each class `k` in `[cls, i0)`
(all previously empty) now holds just the upper half `r + 2^k`, and all
other classes are untouched. -/
theorem allocScan_shape :
    ∀ (n i cls : ℕ) (fl : FreeLists) (r : ℕ) (fl2 : FreeLists), cls ≤ i →
      (∀ j, cls ≤ j → j < i → getFL fl j = []) →
      allocScan cls (List.range' i n) fl = (some r, fl2) →
      ∃ i0 tl, i ≤ i0 ∧ i0 < 32 ∧
        (∀ j, cls ≤ j → j < i0 → getFL fl j = []) ∧
        getFL fl i0 = r :: tl ∧
        ∀ k, getFL fl2 k =
          if cls ≤ k ∧ k < i0 then [r + 2 ^ k]
          else if k = i0 then tl
          else getFL fl k := by
  intro n
  induction n with
  | zero =>
    intro i cls fl r fl2 _ _ h
    exact Option.noConfusion (congrArg Prod.fst h)
  | succ n ih =>
    intro i cls fl r fl2 hcls hempty h
    have hh : allocScan cls (i :: List.range' (i + 1) n) fl = (some r, fl2) := h
    by_cases he : getFL fl i = []
    · rw [show allocScan cls (i :: List.range' (i + 1) n) fl
          = allocScan cls (List.range' (i + 1) n) fl by
            simp only [allocScan, if_pos he]] at hh
      obtain ⟨i0, tl, ha1, ha2, ha3, ha4, ha5⟩ := ih (i + 1) cls fl r fl2 (by omega)
        (fun j hj1 hj2 => by
          by_cases hji : j = i
          · rw [hji]; exact he
          · exact hempty j hj1 (by omega)) hh
      exact ⟨i0, tl, by omega, ha2, ha3, ha4, ha5⟩
    · have hi32 : i < 32 := lt_32_of_getFL_ne_nil he
      obtain ⟨B, tlf, hbt⟩ : ∃ B tlf, getFL fl i = B :: tlf := by
        cases hx : getFL fl i with
        | nil => exact absurd hx he
        | cons B tlf => exact ⟨B, tlf, rfl⟩
      have hic : cls + (i - cls) = i := by omega
      obtain ⟨fl1, hsplit, hpt⟩ := splitSeq_shape (i - cls) cls fl B tlf
        (fun j hj1 hj2 => hempty j hj1 (by omega)) (by rw [hic]; exact hbt)
        (by omega)
      rw [hic] at hsplit
      simp only [hic] at hpt
      by_cases hci : cls = i
      · have hg : getFL fl1 cls = B :: tlf := by
          rw [hpt cls, if_neg (by omega), if_pos hci, if_pos (show i - cls = 0 by omega)]
        have hred : allocScan cls (i :: List.range' (i + 1) n) fl =
            (some B, setFL fl1 cls tlf) := by
          simp only [allocScan, if_neg he, hsplit, hg, removeS_cons_self]
        rw [hred] at hh
        have hr1 : some B = some r := congrArg Prod.fst hh
        obtain rfl : B = r := Option.some.inj hr1
        have hr2 : setFL fl1 cls tlf = fl2 := congrArg Prod.snd hh
        refine ⟨cls, tlf, by omega, by omega,
          fun j hj1 hj2 => absurd hj1 (by omega), by rw [hci]; exact hbt, ?_⟩
        intro k
        rw [← hr2]
        by_cases hk : k = cls
        · rw [hk, getFL_setFL_self _ (by omega), if_neg (by omega), if_pos rfl]
        · rw [getFL_setFL_ne _ hk, hpt k,
            if_neg (show ¬(cls ≤ k ∧ k < i) by omega),
            if_neg (show ¬(k = i) by omega),
            if_neg (show ¬(cls ≤ k ∧ k < cls) by omega), if_neg hk]
      · have hclt : cls < i := by omega
        have hg : getFL fl1 cls = B :: [B + 2 ^ cls] := by
          rw [hpt cls, if_pos ⟨le_rfl, hclt⟩, if_pos rfl]
        have hred : allocScan cls (i :: List.range' (i + 1) n) fl =
            (some B, setFL fl1 cls [B + 2 ^ cls]) := by
          simp only [allocScan, if_neg he, hsplit, hg, removeS_cons_self]
        rw [hred] at hh
        have hr1 : some B = some r := congrArg Prod.fst hh
        obtain rfl : B = r := Option.some.inj hr1
        have hr2 : setFL fl1 cls [B + 2 ^ cls] = fl2 := congrArg Prod.snd hh
        refine ⟨i, tlf, le_rfl, hi32, hempty, hbt, ?_⟩
        intro k
        rw [← hr2]
        by_cases hk : k = cls
        · rw [hk, getFL_setFL_self _ (by omega), if_pos ⟨le_rfl, hclt⟩]
        · rw [getFL_setFL_ne _ hk, hpt k]
          by_cases h2 : cls ≤ k ∧ k < i
          · rw [if_pos h2, if_neg hk, if_pos h2]
          · by_cases h3 : k = i
            · rw [if_neg h2, if_pos h3, if_neg (show ¬(i - cls = 0) by omega),
                if_neg h2, if_pos h3]
            · rw [if_neg h2, if_neg h3, if_neg h2, if_neg h3]

/-- Exact effect of the dealloc coalescing loop when the classes `[cls,
cls + t)` hold exactly the scattered upper halves `B + 2^k` of an aligned
block `B` and class `cls + t` does not hold the buddy of `B`: every
intermediate half merges back and `B` is inserted at class `cls + t`. -/
theorem deallocSeq_merge :
    ∀ (t cls : ℕ) (fl : FreeLists) (B : ℕ),
      (∀ k, cls ≤ k → k < cls + t → getFL fl k = [B + 2 ^ k]) →
      cls + t < 32 →
      2 ^ (cls + t) ∣ B →
      (B ^^^ 2 ^ (cls + t)) ∉ getFL fl (cls + t) →
      ∀ k, getFL (deallocSeq (List.range' cls (32 - cls)) B fl) k =
        if cls ≤ k ∧ k < cls + t then []
        else if k = cls + t then insertS B (getFL fl (cls + t))
        else getFL fl k := by
  intro t
  induction t with
  | zero =>
    intro cls fl B _ h32 _ hnb k
    rw [Nat.add_zero] at h32 hnb ⊢
    have hr : 32 - cls = (32 - (cls + 1)) + 1 := by omega
    rw [hr]
    show getFL (deallocSeq (cls :: List.range' (cls + 1) (32 - (cls + 1))) B fl) k = _
    simp only [deallocSeq]
    rw [if_neg hnb]
    by_cases hk : k = cls
    · rw [hk, getFL_setFL_self _ (by omega), if_neg (by omega), if_pos rfl]
    · rw [getFL_setFL_ne _ hk, if_neg (by omega), if_neg hk]
  | succ t ih =>
    intro cls fl B hsh h32 hdvd hnb k
    have hcls32 : cls < 32 := by omega
    have hr : 32 - cls = (32 - (cls + 1)) + 1 := by omega
    rw [hr]
    show getFL (deallocSeq (cls :: List.range' (cls + 1) (32 - (cls + 1))) B fl) k = _
    have hdvd1 : 2 ^ (cls + 1) ∣ B := dvd_trans (pow_dvd_pow 2 (by omega)) hdvd
    have hbx : B ^^^ 2 ^ cls = B + 2 ^ cls := xor_two_pow_of_even hdvd1
    have hshc : getFL fl cls = [B + 2 ^ cls] := hsh cls le_rfl (by omega)
    have hmem : B ^^^ 2 ^ cls ∈ getFL fl cls := by
      rw [hbx, hshc]
      exact List.mem_singleton.mpr rfl
    simp only [deallocSeq]
    rw [if_pos hmem]
    have hpos : 0 < 2 ^ cls := Nat.pos_pow_of_pos _ (by norm_num)
    have hmin : min B (B ^^^ 2 ^ cls) = B := by rw [hbx]; omega
    have hrm : removeS (B ^^^ 2 ^ cls) (getFL fl cls) = [] := by
      rw [hbx, hshc, removeS_cons_self]
    rw [hmin, hrm]
    have hmid : cls + 1 + t = cls + (t + 1) := by omega
    have ihk := ih (cls + 1) (setFL fl cls []) B
      (fun j hj1 hj2 => by
        rw [getFL_setFL_ne _ (show j ≠ cls by omega)]
        exact hsh j (by omega) (by omega))
      (by omega)
      (by rw [hmid]; exact hdvd)
      (by
        rw [hmid, getFL_setFL_ne _ (show cls + (t + 1) ≠ cls by omega)]
        exact hnb)
      k
    rw [hmid] at ihk
    rw [ihk]
    by_cases h1 : cls + 1 ≤ k ∧ k < cls + (t + 1)
    · rw [if_pos h1, if_pos (show cls ≤ k ∧ k < cls + (t + 1) by omega)]
    · by_cases h2 : k = cls + (t + 1)
      · rw [if_neg h1, if_pos h2,
          getFL_setFL_ne _ (show cls + (t + 1) ≠ cls by omega),
          if_neg (show ¬(cls ≤ k ∧ k < cls + (t + 1)) by omega), if_pos h2]
      · by_cases h3 : k = cls
        · rw [if_neg h1, if_neg h2, h3, getFL_setFL_self _ hcls32,
            if_pos (show cls ≤ cls ∧ cls < cls + (t + 1) by omega)]
        · rw [if_neg h1, if_neg h2, getFL_setFL_ne _ h3,
            if_neg (show ¬(cls ≤ k ∧ k < cls + (t + 1)) by omega), if_neg h2]

/-- Running the dealloc loop on the post-alloc free lists restores the
pre-alloc free lists, given sortedness, alignment and buddy-freeness of the
popped class. -/
theorem dealloc_restore_core (fl : FreeLists) (cls i0 r : ℕ) (tl : List ℕ)
    (fl2 : FreeLists) (hle : cls ≤ i0) (h32 : i0 < 32)
    (hempty : ∀ j, cls ≤ j → j < i0 → getFL fl j = [])
    (hhead : getFL fl i0 = r :: tl)
    (hsorted : List.Sorted (· < ·) (r :: tl))
    (halign : 2 ^ i0 ∣ r)
    (hbuddy : r ^^^ 2 ^ i0 ∉ r :: tl)
    (hpt : ∀ k, getFL fl2 k =
      if cls ≤ k ∧ k < i0 then [r + 2 ^ k]
      else if k = i0 then tl
      else getFL fl k) :
    deallocSeq (List.range' cls (32 - cls)) r fl2 = fl := by
  have hi : cls + (i0 - cls) = i0 := by omega
  have hins : insertS r tl = r :: tl :=
    insertS_of_forall_lt tl (List.sorted_cons.mp hsorted).1
  funext kk
  have hmerge := deallocSeq_merge (i0 - cls) cls fl2 r
    (fun k hk1 hk2 => by rw [hpt k, if_pos ⟨hk1, by omega⟩])
    (by omega)
    (by rw [hi]; exact halign)
    (by
      rw [hi, hpt i0, if_neg (show ¬(cls ≤ i0 ∧ i0 < i0) by omega), if_pos rfl]
      intro hm
      exact hbuddy (List.mem_cons_of_mem _ hm))
    kk.val
  simp only [hi] at hmerge
  have hg : getFL (deallocSeq (List.range' cls (32 - cls)) r fl2) kk.val
      = getFL fl kk.val := by
    rw [hmerge]
    by_cases h1 : cls ≤ kk.val ∧ kk.val < i0
    · rw [if_pos h1, hempty kk.val h1.1 h1.2]
    · by_cases h2 : kk.val = i0
      · rw [if_neg h1, if_pos h2, hpt i0,
          if_neg (show ¬(cls ≤ i0 ∧ i0 < i0) by omega), if_pos rfl, hins, h2, hhead]
      · rw [if_neg h1, if_neg h2, hpt kk.val, if_neg h1, if_neg h2]
  rw [getFL_eq kk.isLt, getFL_eq kk.isLt] at hg
  exact hg

end FrameAllocator

/-- Counterexample to C5 as stated: the state after `add_frame(0, 1024)` is
reachable, and `alloc(32)` on it succeeds returning frame `0`, but the
following `dealloc(0, 32)` does not restore the state — class `5` held the
buddy pair `{0, 32}`, so the coalescing loop of `dealloc` merges all the way
up and leaves `{0}` at class `10` instead of restoring classes `5..9`. -/
theorem claim_C5_counterexample :
    FrameAllocator.Reach (FrameAllocator.new.add_frame 0 1024) (∅ ∪ Set.Ico 0 1024) 0 ∧
    ((FrameAllocator.new.add_frame 0 1024).alloc 32).1 = some 0 ∧
    ((FrameAllocator.new.add_frame 0 1024).alloc 32).2.dealloc 0 32 ≠
      FrameAllocator.new.add_frame 0 1024 := by
  refine ⟨FrameAllocator.Reach.add FrameAllocator.Reach.new (by norm_num) (by norm_num)
    (by simp), by decide, fun h => ?_⟩
  exact absurd (FrameAllocator.beqFA_iff.mpr h) (by decide)

/-- C5 (amended): the round trip does restore the exact state on every
allocator whose free lists satisfy the `BTreeSet` representation invariant
(strictly sorted), are aligned (every block on free-list `k` is a multiple
of `2^k`), and contain no block together with its own buddy — for every
count `c`, if `alloc(c)` succeeds returning `p`, the immediate
`dealloc(p, c)` returns the allocator to exactly the pre-alloc state (all 32
free-list sets and both counters).  The buddy-freeness hypothesis is what
the original claim is missing: reachable states can hold buddy pairs (see
the counterexample), and on those the dealloc coalescing over-merges. -/
theorem claim_C5_amended {s : FrameAllocator} {c p : ℕ} {s2 : FrameAllocator}
    (hsort : FrameAllocator.SortedFL s.free_list)
    (hal : FrameAllocator.AlignedFL s.free_list)
    (hbf : FrameAllocator.BuddyFree s.free_list)
    (h : s.alloc c = (some p, s2)) :
    s2.dealloc p c = s := by
  rcases hres : FrameAllocator.allocScan (trailingZeros (nextPow2 c))
      (List.range' (trailingZeros (nextPow2 c)) (32 - trailingZeros (nextPow2 c)))
      s.free_list with ⟨o, fl2⟩
  have halloc : s.alloc c =
      (match (o, fl2) with
        | (some r, fl1) => (some r, ⟨fl1, s.allocated + nextPow2 c, s.total⟩)
        | (none, fl1) => (none, ⟨fl1, s.allocated, s.total⟩)) := by
    rw [← hres]
    rfl
  rw [halloc] at h
  cases o with
  | none => exact Option.noConfusion (congrArg Prod.fst h)
  | some r =>
    have h2 : (some r, (⟨fl2, s.allocated + nextPow2 c, s.total⟩ : FrameAllocator))
        = (some p, s2) := h
    have hrp : some r = some p := congrArg Prod.fst h2
    obtain rfl : p = r := (Option.some.inj hrp).symm
    have hs2 : s2 = (⟨fl2, s.allocated + nextPow2 c, s.total⟩ : FrameAllocator) :=
      (congrArg Prod.snd h2).symm
    subst hs2
    obtain ⟨i0, tl, hle, hi32, hempty, hhead, hpt⟩ :=
      FrameAllocator.allocScan_shape (32 - trailingZeros (nextPow2 c))
        (trailingZeros (nextPow2 c)) (trailingZeros (nextPow2 c)) s.free_list p fl2
        le_rfl (fun j hj1 hj2 => absurd hj1 (by omega)) hres
    have hmem : p ∈ s.free_list ⟨i0, hi32⟩ :=
      FrameAllocator.mem_class_of_getFL hi32
        (by rw [hhead]; exact List.mem_cons_self p tl)
    have hflval : s.free_list ⟨i0, hi32⟩ = p :: tl :=
      (FrameAllocator.getFL_eq hi32).symm.trans hhead
    have hsorted : List.Sorted (· < ·) (p :: tl) := by
      rw [← hflval]
      exact hsort ⟨i0, hi32⟩
    have halign : 2 ^ i0 ∣ p := hal ⟨i0, hi32⟩ p hmem
    have hbuddy : p ^^^ 2 ^ i0 ∉ p :: tl := by
      rw [← hflval]
      exact hbf ⟨i0, hi32⟩ p hmem
    have hfl := FrameAllocator.dealloc_restore_core s.free_list
      (trailingZeros (nextPow2 c)) i0 p tl fl2 hle hi32 hempty hhead hsorted
      halign hbuddy hpt
    show (⟨FrameAllocator.deallocSeq
        (List.range' (trailingZeros (nextPow2 c)) (32 - trailingZeros (nextPow2 c)))
        p fl2, s.allocated + nextPow2 c - nextPow2 c, s.total⟩ : FrameAllocator) = s
    rw [hfl, Nat.add_sub_cancel]

/-- Witness for the amended C5 after `insert(0..3)`: its free lists are
sorted, aligned and buddy-free, `alloc(1)` succeeds returning frame `2`, and
`dealloc(2, 1)` restores the state exactly. -/
theorem claim_C5_amended_witness :
    FrameAllocator.SortedFL (FrameAllocator.new.insertRange 0 3).free_list ∧
    FrameAllocator.AlignedFL (FrameAllocator.new.insertRange 0 3).free_list ∧
    FrameAllocator.BuddyFree (FrameAllocator.new.insertRange 0 3).free_list ∧
    ((FrameAllocator.new.insertRange 0 3).alloc 1).1 = some 2 ∧
    ((FrameAllocator.new.insertRange 0 3).alloc 1).2.dealloc 2 1 =
      FrameAllocator.new.insertRange 0 3 := by
  have hs : FrameAllocator.SortedFL (FrameAllocator.new.insertRange 0 3).free_list :=
    (by decide : ∀ k : Fin 32,
      List.Sorted (· < ·) ((FrameAllocator.new.insertRange 0 3).free_list k))
  have ha : FrameAllocator.AlignedFL (FrameAllocator.new.insertRange 0 3).free_list :=
    (by decide : ∀ k : Fin 32,
      ∀ p ∈ (FrameAllocator.new.insertRange 0 3).free_list k, 2 ^ k.val ∣ p)
  have hb : FrameAllocator.BuddyFree (FrameAllocator.new.insertRange 0 3).free_list :=
    (by decide : ∀ k : Fin 32,
      ∀ p ∈ (FrameAllocator.new.insertRange 0 3).free_list k,
        p ^^^ 2 ^ k.val ∉ (FrameAllocator.new.insertRange 0 3).free_list k)
  have h1 : ((FrameAllocator.new.insertRange 0 3).alloc 1).1 = some 2 := by decide
  have h2 : (FrameAllocator.new.insertRange 0 3).alloc 1 =
      (some 2, ((FrameAllocator.new.insertRange 0 3).alloc 1).2) := by
    rw [← h1]
  exact ⟨hs, ha, hb, h1, claim_C5_amended hs ha hb h2⟩

/-! ## Claim C7: alignment on unrestricted executions -/

theorem trailingZeros_zero : trailingZeros 0 = 64 := rfl

theorem lowBit_of_ge {p : ℕ} (h : 2 ^ 64 ≤ p) : lowBit p = 0 := by
  unfold lowBit
  rw [Nat.sub_eq_zero_of_le h, Nat.zero_mod]
  simp

namespace FrameAllocator

theorem aligned_getFL {fl : FreeLists} (hal : AlignedFL fl) {k q : ℕ}
    (hq : q ∈ getFL fl k) : 2 ^ k ∣ q := by
  by_cases hk : k < 32
  · exact hal ⟨k, hk⟩ q (mem_class_of_getFL hk hq)
  · unfold getFL at hq
    rw [dif_neg hk] at hq
    exact absurd hq (List.not_mem_nil q)

theorem alignedFL_setFL_oob {fl : FreeLists} {k : ℕ} {t : List ℕ} (hk : 32 ≤ k)
    (hal : AlignedFL fl) : AlignedFL (setFL fl k t) := by
  intro j p hp
  have hj := j.isLt
  unfold setFL at hp
  rw [if_neg (by omega)] at hp
  exact hal j p hp

theorem alignedFL_insert {fl : FreeLists} {k x : ℕ} (hal : AlignedFL fl)
    (hx : 2 ^ k ∣ x) : AlignedFL (setFL fl k (insertS x (getFL fl k))) := by
  apply alignedFL_setFL hal
  intro q hq
  rcases mem_insertS _ hq with rfl | hmem
  · exact hx
  · exact aligned_getFL hal hmem

/-- The `add_frame` loop preserves free-list alignment with no bound on the
range: each pushed block's class is at most the number of trailing zeros of
its start (for starts below `2^64`), the `p = 0` pushes are trivially
aligned, and for `p ≥ 2^64` (beyond any `usize`) the modelled low bit is
`0`, making the write land out of the array's range, a no-op. -/
theorem addFrameLoop_aligned :
    ∀ (fuel : ℕ) (fl : FreeLists) (p e acc : ℕ), AlignedFL fl →
      AlignedFL (addFrameLoop fuel fl p e acc).1 := by
  intro fuel
  induction fuel with
  | zero =>
    intro fl p e acc hal
    exact hal
  | succ fuel ih =>
    intro fl p e acc hal
    by_cases hpe : p < e
    · simp only [addFrameLoop, if_pos hpe]
      apply ih
      by_cases hp0 : 0 < p
      · by_cases hp64 : p < 2 ^ 64
        · rw [if_pos hp0, lowBit_eq hp0 hp64]
          simp only [prevPowerOfTwo]
          rw [min_two_pow, trailingZeros_two_pow]
          exact alignedFL_insert hal
            (dvd_trans (pow_dvd_pow 2 (Nat.min_le_left _ _))
              (two_pow_trailingZeros_dvd hp0))
        · rw [if_pos hp0, lowBit_of_ge (by omega), Nat.zero_min, trailingZeros_zero]
          exact alignedFL_setFL_oob (by norm_num) hal
      · rw [if_neg hp0]
        have hp : p = 0 := by omega
        subst hp
        exact alignedFL_insert hal (dvd_zero _)
    · simp only [addFrameLoop, if_neg hpe]
      exact hal

/-- A successful `alloc` preserves free-list alignment and returns a frame
aligned to the rounded request size. -/
theorem alloc_aligned {s : FrameAllocator} {c p : ℕ}
    (hal : AlignedFL s.free_list) (h : (s.alloc c).1 = some p) :
    AlignedFL (s.alloc c).2.free_list ∧ nextPow2 c ∣ p := by
  rcases hres : allocScan (trailingZeros (nextPow2 c))
      (List.range' (trailingZeros (nextPow2 c)) (32 - trailingZeros (nextPow2 c)))
      s.free_list with ⟨o, fl2⟩
  have halloc : s.alloc c =
      (match (o, fl2) with
        | (some r, fl1) => (some r, ⟨fl1, s.allocated + nextPow2 c, s.total⟩)
        | (none, fl1) => (none, ⟨fl1, s.allocated, s.total⟩)) := by
    rw [← hres]
    rfl
  rw [halloc] at h ⊢
  cases o with
  | none => exact Option.noConfusion h
  | some r =>
    have h2 : some r = some p := h
    obtain rfl : p = r := (Option.some.inj h2).symm
    show AlignedFL fl2 ∧ nextPow2 c ∣ p
    obtain ⟨i0, tl, hle, hi32, hempty, hhead, hpt⟩ :=
      allocScan_shape (32 - trailingZeros (nextPow2 c)) (trailingZeros (nextPow2 c))
        (trailingZeros (nextPow2 c)) s.free_list p fl2 le_rfl
        (fun j hj1 hj2 => absurd hj1 (by omega)) hres
    have hpal : 2 ^ i0 ∣ p :=
      hal ⟨i0, hi32⟩ p (mem_class_of_getFL hi32
        (by rw [hhead]; exact List.mem_cons_self p tl))
    constructor
    · intro j q hq
      have hq2 : q ∈ getFL fl2 j.val := by
        rw [getFL_eq j.isLt]
        exact hq
      rw [hpt j.val] at hq2
      by_cases h1 : trailingZeros (nextPow2 c) ≤ j.val ∧ j.val < i0
      · rw [if_pos h1] at hq2
        have hq3 : q = p + 2 ^ j.val := List.mem_singleton.mp hq2
        subst hq3
        exact dvd_add (dvd_trans (pow_dvd_pow 2 (le_of_lt h1.2)) hpal) dvd_rfl
      · rw [if_neg h1] at hq2
        by_cases hj0 : j.val = i0
        · rw [if_pos hj0] at hq2
          rw [hj0]
          exact aligned_getFL hal
            (by rw [hhead]; exact List.mem_cons_of_mem _ hq2)
        · rw [if_neg hj0] at hq2
          exact aligned_getFL hal hq2
    · rw [nextPow2_eq_pow_tz c]
      exact dvd_trans (pow_dvd_pow 2 hle) hpal

/-- The dealloc coalescing loop preserves alignment: the running pointer
stays aligned to the running class (the merged pointer is the smaller of a
block and its buddy), and the final insert puts an aligned block on its
class. -/
theorem deallocSeq_aligned :
    ∀ (n k : ℕ) (fl : FreeLists) (p : ℕ), AlignedFL fl → 2 ^ k ∣ p →
      AlignedFL (deallocSeq (List.range' k n) p fl) := by
  intro n
  induction n with
  | zero =>
    intro k fl p hal _
    exact hal
  | succ n ih =>
    intro k fl p hal hdvd
    show AlignedFL (deallocSeq (k :: List.range' (k + 1) n) p fl)
    simp only [deallocSeq]
    by_cases hmem : p ^^^ 2 ^ k ∈ getFL fl k
    · rw [if_pos hmem]
      apply ih
      · apply alignedFL_setFL hal
        intro q hq
        exact aligned_getFL hal (mem_removeS _ hq)
      · obtain ⟨m, hm⟩ := hdvd
        rcases Nat.even_or_odd m with he | ho
        · obtain ⟨t, ht⟩ := he
          have h2 : 2 ^ (k + 1) ∣ p := ⟨t, by rw [hm, ht, pow_succ]; ring⟩
          rw [xor_two_pow_of_even h2, min_eq_left (Nat.le_add_right _ _)]
          exact h2
        · have hmo : m % 2 = 1 := Nat.odd_iff.mp ho
          rw [xor_two_pow_of_odd hmo hm, min_eq_right (Nat.sub_le _ _)]
          obtain ⟨u, hu⟩ : 2 ∣ (m - 1) := by omega
          have hpu : p = 2 ^ (k + 1) * u + 2 ^ k := by
            rw [hm]
            have hm2 : m = 2 * u + 1 := by omega
            rw [hm2, pow_succ]
            ring
          exact ⟨u, by omega⟩
    · rw [if_neg hmem]
      exact alignedFL_insert hal hdvd

/-- `dealloc` of a block aligned to its rounded size preserves free-list
alignment. -/
theorem dealloc_aligned {s : FrameAllocator} {p c : ℕ}
    (hal : AlignedFL s.free_list) (hp : nextPow2 c ∣ p) :
    AlignedFL (s.dealloc p c).free_list := by
  have h2 : 2 ^ trailingZeros (nextPow2 c) ∣ p := by
    rw [← nextPow2_eq_pow_tz]
    exact hp
  exact deallocSeq_aligned (32 - trailingZeros (nextPow2 c))
    (trailingZeros (nextPow2 c)) s.free_list p hal h2

/-- Alignment invariant on unrestricted executions: every reachable state
has aligned free lists, and every live allocation is aligned to its rounded
count. -/
theorem reachAny_aligned {s : FrameAllocator} {live : Multiset (ℕ × ℕ)}
    (h : ReachAny s live) :
    AlignedFL s.free_list ∧ ∀ pc ∈ live, nextPow2 pc.2 ∣ pc.1 := by
  induction h with
  | new =>
    exact ⟨fun k p hp => absurd hp (List.not_mem_nil p),
      fun pc hpc => absurd hpc (Multiset.not_mem_zero pc)⟩
  | add hr ih =>
    exact ⟨addFrameLoop_aligned _ _ _ _ _ ih.1, ih.2⟩
  | insertR hr ih =>
    exact ⟨addFrameLoop_aligned _ _ _ _ _ ih.1, ih.2⟩
  | allocStep hr hsome ih =>
    obtain ⟨hfl, hdvd⟩ := alloc_aligned ih.1 hsome
    refine ⟨hfl, ?_⟩
    intro pc hpc
    rcases Multiset.mem_cons.mp hpc with rfl | hpc2
    · exact hdvd
    · exact ih.2 pc hpc2
  | deallocStep hr hmem ih =>
    exact ⟨dealloc_aligned ih.1 (ih.2 _ hmem),
      fun pc hpc => ih.2 pc (Multiset.mem_of_mem_erase hpc)⟩

end FrameAllocator

/-- C7: alignment — in every state reachable from `new()` by any sequence
of `add_frame`/`insert` calls (no bound on the fed ranges), successful
allocs, and deallocs that exactly match a live allocation, every frame
index stored in free-list set `k` is divisible by `2^k`. -/
theorem claim_C7 {s : FrameAllocator} {live : Multiset (ℕ × ℕ)}
    (h : FrameAllocator.ReachAny s live) :
    ∀ k : Fin 32, ∀ p ∈ s.free_list k, 2 ^ k.val ∣ p :=
  (FrameAllocator.reachAny_aligned h).1

/-- Witness for C7 at a feed above `2^31`: after `add_frame(2^31, 2^31 +
1024)` the frame `2^31` sits on free-list `10` and is divisible by
`2^10`. -/
theorem claim_C7_witness :
    2 ^ 31 ∈ (FrameAllocator.new.add_frame (2 ^ 31) (2 ^ 31 + 1024)).free_list
      ⟨10, by norm_num⟩ ∧ 2 ^ (10 : ℕ) ∣ 2 ^ 31 := by
  have h1 : FrameAllocator.ReachAny
      (FrameAllocator.new.add_frame (2 ^ 31) (2 ^ 31 + 1024)) 0 :=
    FrameAllocator.ReachAny.add FrameAllocator.ReachAny.new
  exact ⟨by decide, claim_C7 h1 ⟨10, by norm_num⟩ (2 ^ 31) (by decide)⟩

/-! ## Claims C8 and C9: the linked-list byte heap -/

namespace ListHeap

/-- `alloc_from_region` succeeds exactly on the regions satisfying the
claim's acceptance condition (for region ends below `2^64`, where the
`checked_add` cannot overflow), and then returns the aligned start. -/
theorem allocFromRegion_eq (rg : ℕ × ℕ) (size align : ℕ)
    (hb : rg.1 + rg.2 < 2 ^ 64) :
    allocFromRegion rg size align =
      if fits rg size align then some (alignUp rg.1 align) else none := by
  simp only [allocFromRegion, fits, nodeSize]
  split_ifs <;> first | rfl | (exfalso; omega)

theorem find_region_cons (size align : ℕ) (rg : ℕ × ℕ) (rest : List (ℕ × ℕ)) :
    find_region size align (rg :: rest) =
      match allocFromRegion rg size align with
      | some alloc_start => some (rg, alloc_start, rest)
      | none =>
        match find_region size align rest with
        | some (r, a, rest2) => some (r, a, rg :: rest2)
        | none => none := rfl

/-- `find_region` on a chain whose prefix is all unsuitable and whose next
region fits: it unlinks exactly that region, keeping the chain order. -/
theorem find_region_eq (size align : ℕ) :
    ∀ (pre post : List (ℕ × ℕ)) (rg : ℕ × ℕ),
      (∀ x ∈ pre, ¬ fits x size align) → fits rg size align →
      (∀ x ∈ pre, x.1 + x.2 < 2 ^ 64) → rg.1 + rg.2 < 2 ^ 64 →
      find_region size align (pre ++ rg :: post) =
        some (rg, alignUp rg.1 align, pre ++ post) := by
  intro pre
  induction pre with
  | nil =>
    intro post rg _ hf _ hb
    rw [List.nil_append, find_region_cons, allocFromRegion_eq rg size align hb,
      if_pos hf]
    rfl
  | cons x xs ih =>
    intro post rg hpre hf hbpre hb
    rw [List.cons_append, find_region_cons,
      allocFromRegion_eq x size align (hbpre x (List.mem_cons_self x xs)),
      if_neg (hpre x (List.mem_cons_self x xs)),
      ih post rg (fun y hy => hpre y (List.mem_cons_of_mem x hy)) hf
        (fun y hy => hbpre y (List.mem_cons_of_mem x hy)) hb]
    rfl

/-- `find_region` fails exactly when no region in the chain fits. -/
theorem find_region_none_iff (size align : ℕ) :
    ∀ rs : List (ℕ × ℕ), (∀ x ∈ rs, x.1 + x.2 < 2 ^ 64) →
      (find_region size align rs = none ↔ ∀ x ∈ rs, ¬ fits x size align) := by
  intro rs
  induction rs with
  | nil =>
    intro _
    constructor
    · intro _ x hx
      exact absurd hx (List.not_mem_nil x)
    · intro _
      rfl
  | cons x xs ih =>
    intro hb
    rw [find_region_cons,
      allocFromRegion_eq x size align (hb x (List.mem_cons_self x xs))]
    by_cases hf : fits x size align
    · rw [if_pos hf]
      constructor
      · intro h
        exact Option.noConfusion h
      · intro hall
        exact absurd hf (hall x (List.mem_cons_self x xs))
    · rw [if_neg hf]
      have ih2 := ih (fun y hy => hb y (List.mem_cons_of_mem x hy))
      cases hrec : find_region size align xs with
      | none =>
        constructor
        · intro _ y hy
          rcases List.mem_cons.mp hy with rfl | hy2
          · exact hf
          · exact (ih2.mp hrec) y hy2
        · intro _
          rfl
      | some t =>
        constructor
        · intro h
          exact Option.noConfusion h
        · intro hall
          have h2 := ih2.mpr (fun y hy => hall y (List.mem_cons_of_mem x hy))
          rw [hrec] at h2
          exact Option.noConfusion h2

theorem allocCore_eq (size align : ℕ) (rs : List (ℕ × ℕ)) :
    allocCore size align rs =
      match find_region size align rs with
      | some (rg, alloc_start, rest) =>
        if 0 < rg.1 + rg.2 - (alloc_start + size) then
          (some alloc_start,
            (alloc_start + size, rg.1 + rg.2 - (alloc_start + size)) :: rest)
        else (some alloc_start, rest)
      | none => (none, rs) := rfl

theorem allocCore_none_of_fr (size align : ℕ) (rs : List (ℕ × ℕ))
    (hfr : find_region size align rs = none) :
    allocCore size align rs = (none, rs) := by
  rw [allocCore_eq, hfr]

theorem allocCore_some_eq (size align : ℕ) (rs : List (ℕ × ℕ)) (rg : ℕ × ℕ)
    (a : ℕ) (rest : List (ℕ × ℕ))
    (hfr : find_region size align rs = some (rg, a, rest)) :
    allocCore size align rs =
      if 0 < rg.1 + rg.2 - (a + size) then
        (some a, (a + size, rg.1 + rg.2 - (a + size)) :: rest)
      else (some a, rest) := by
  rw [allocCore_eq, hfr]

theorem allocCore_fst_some (size align : ℕ) {rs rest : List (ℕ × ℕ)}
    {rg : ℕ × ℕ} {a : ℕ} (hfr : find_region size align rs = some (rg, a, rest)) :
    (allocCore size align rs).1 = some a := by
  rw [allocCore_some_eq size align rs rg a rest hfr]
  by_cases hex : 0 < rg.1 + rg.2 - (a + size)
  · rw [if_pos hex]
  · rw [if_neg hex]

/-- A failed `alloc` leaves the free list untouched. -/
theorem allocCore_none_eq (size align : ℕ) (rs : List (ℕ × ℕ))
    (h : (allocCore size align rs).1 = none) :
    allocCore size align rs = (none, rs) := by
  cases hfr : find_region size align rs with
  | none => exact allocCore_none_of_fr size align rs hfr
  | some t =>
    obtain ⟨rg, a, rest⟩ := t
    rw [allocCore_fst_some size align hfr] at h
    exact Option.noConfusion h

end ListHeap

/-- C8: first fit on the byte heap — at any already layout-adjusted `size`
and `align`, on any chain whose region ends stay below `2^64`: `alloc`
returns null exactly when no region in the chain satisfies the acceptance
condition (aligned allocation fits, and the trailing excess is zero or at
least the node-header size), leaving the chain untouched; and when the
chain splits as `pre ++ rg :: post` with every region of `pre` unsuitable
and `rg` suitable, `alloc` returns `align_up(rg.start, align)`, unlinks
`rg`, and — iff the trailing excess is positive — pushes a new free node at
`alloc_start + size` covering exactly the excess. -/
theorem claim_C8 (size align : ℕ) (rs : List (ℕ × ℕ))
    (hb : ∀ x ∈ rs, x.1 + x.2 < 2 ^ 64) :
    ((ListHeap.allocCore size align rs).1 = none ↔
      ∀ x ∈ rs, ¬ ListHeap.fits x size align) ∧
    ((ListHeap.allocCore size align rs).1 = none →
      (ListHeap.allocCore size align rs).2 = rs) ∧
    (∀ pre rg post, rs = pre ++ rg :: post →
      (∀ x ∈ pre, ¬ ListHeap.fits x size align) → ListHeap.fits rg size align →
      ListHeap.allocCore size align rs =
        (some (ListHeap.alignUp rg.1 align),
          if 0 < rg.1 + rg.2 - (ListHeap.alignUp rg.1 align + size) then
            (ListHeap.alignUp rg.1 align + size,
              rg.1 + rg.2 - (ListHeap.alignUp rg.1 align + size)) :: (pre ++ post)
          else pre ++ post)) := by
  refine ⟨?_, ?_, ?_⟩
  · cases hfr : ListHeap.find_region size align rs with
    | none =>
      constructor
      · intro _
        exact (ListHeap.find_region_none_iff size align rs hb).mp hfr
      · intro _
        rw [ListHeap.allocCore_none_of_fr size align rs hfr]
    | some t =>
      obtain ⟨rg, a, rest⟩ := t
      constructor
      · intro h
        rw [ListHeap.allocCore_fst_some size align hfr] at h
        exact Option.noConfusion h
      · intro hall
        have h2 := (ListHeap.find_region_none_iff size align rs hb).mpr hall
        rw [hfr] at h2
        exact Option.noConfusion h2
  · intro h
    exact congrArg Prod.snd (ListHeap.allocCore_none_eq size align rs h)
  · intro pre rg post hrs hpre hf
    subst hrs
    have hbpre : ∀ x ∈ pre, x.1 + x.2 < 2 ^ 64 :=
      fun x hx => hb x (List.mem_append_left _ hx)
    have hbrg : rg.1 + rg.2 < 2 ^ 64 :=
      hb rg (List.mem_append_right _ (List.mem_cons_self rg post))
    have hfr := ListHeap.find_region_eq size align pre post rg hpre hf hbpre hbrg
    rw [ListHeap.allocCore_some_eq size align (pre ++ rg :: post) rg
      (ListHeap.alignUp rg.1 align) (pre ++ post) hfr]
    by_cases hex : 0 < rg.1 + rg.2 - (ListHeap.alignUp rg.1 align + size)
    · rw [if_pos hex, if_pos hex]
    · rw [if_neg hex, if_neg hex]

/-- Witness for C8 on the chain `[(0, 16), (100, 64)]` with `size = 24`,
`align = 8`: the first region is too small, the second fits with aligned
start `104` and trailing excess `36`, which becomes a new node at `128`. -/
theorem claim_C8_witness :
    (∀ x ∈ [((0, 16) : ℕ × ℕ), (100, 64)], x.1 + x.2 < 2 ^ 64) ∧
    ListHeap.allocCore 24 8 [((0, 16) : ℕ × ℕ), (100, 64)] =
      (some (ListHeap.alignUp 100 8),
        if 0 < (100 : ℕ) + 64 - (ListHeap.alignUp 100 8 + 24) then
          (ListHeap.alignUp 100 8 + 24, 100 + 64 - (ListHeap.alignUp 100 8 + 24))
            :: ([((0, 16) : ℕ × ℕ)] ++ [])
        else [((0, 16) : ℕ × ℕ)] ++ []) := by
  refine ⟨by decide, ?_⟩
  exact (claim_C8 24 8 [((0, 16) : ℕ × ℕ), (100, 64)] (by decide)).2.2
    [(0, 16)] (100, 64) [] rfl
    (fun x hx => by
      rw [List.mem_singleton.mp hx]
      decide)
    (by decide)

/-- C9: `realloc(ptr, layout, new_size)` is allocate-with-new-size-and-old-
alignment, copy `min(old size, new size)` bytes from `ptr` to the new
block, deallocate `ptr` with the old layout; and when the allocation fails
it returns null with the free list and the memory unchanged. -/
theorem claim_C9 (ptr size align new_size : ℕ) (rs : List (ℕ × ℕ))
    (mem : ℕ → ℕ) :
    (∀ np rs2, ListHeap.listAlloc new_size align rs = (some np, rs2) →
      ListHeap.listRealloc ptr size align new_size rs mem =
        (some np, ListHeap.listDealloc ptr size align rs2,
          ListHeap.copyMem ptr np (min size new_size) mem)) ∧
    ((ListHeap.listAlloc new_size align rs).1 = none →
      ListHeap.listRealloc ptr size align new_size rs mem = (none, rs, mem)) := by
  constructor
  · intro np rs2 h
    simp only [ListHeap.listRealloc, h]
  · intro h
    have h2 : ListHeap.listAlloc new_size align rs = (none, rs) :=
      ListHeap.allocCore_none_eq (ListHeap.size_align new_size align).1
        (ListHeap.size_align new_size align).2 rs h
    simp only [ListHeap.listRealloc, h2]

/-- Witness for C9: reallocating the 4-byte block at `200` to 8 bytes on
the chain `[(0, 32)]` allocates the adjusted 16-byte block at `0`, copies
`min(4, 8)` bytes from `200` to `0`, and frees the old block. -/
theorem claim_C9_witness :
    ListHeap.listAlloc 8 8 [((0, 32) : ℕ × ℕ)] = (some 0, [(16, 16)]) ∧
    ListHeap.listRealloc 200 4 8 8 [((0, 32) : ℕ × ℕ)] (fun a => a) =
      (some 0, ListHeap.listDealloc 200 4 8 [((16, 16) : ℕ × ℕ)],
        ListHeap.copyMem 200 0 (min 4 8) (fun a => a)) := by
  have h : ListHeap.listAlloc 8 8 [((0, 32) : ℕ × ℕ)] = (some 0, [(16, 16)]) := by
    decide
  exact ⟨h, (claim_C9 200 4 8 8 [((0, 32) : ℕ × ℕ)] (fun a => a)).1 0 [(16, 16)] h⟩
